import Mathlib

/-!
Verification development for the pdf-translator server core
(`server/src/index.ts`): credential vault (AES-256-GCM blob framing),
stateless signed session tokens, the in-memory rate-limit fallback, the
Redis-backed session store with its active-session cap, the login
handler, the translation cache keying, and the streaming relay loop.

Modelling conventions:
* JS strings that are manipulated byte-wise (base64 blobs, tokens,
  cache keys) are modelled as `List Nat` of UTF-8 byte values; all the
  relevant data is ASCII, where one JS UTF-16 code unit corresponds to
  exactly one byte, so JS `split('.')` / `slice` coincide with the
  byte-level operations used here.
* Cryptographic primitives from node's `crypto` module (SHA-256,
  HMAC-SHA256, the AES-256-CTR core and the GHASH tag of AES-GCM) are
  external to the repository; they are taken as parameters, and the
  standard idealisations (fixed digest length, absence of the specific
  collisions an adversary would need) appear as explicit hypotheses of
  the theorems that need them.
* The base64 encoder/decoder is implemented concretely, including the
  forgiving decoding of node's `Buffer.from(s, 'base64')` (non-alphabet
  bytes such as `=` are skipped, trailing bits are dropped).
-/

namespace PdfTranslator

/-! ## Base64 (node `Buffer` semantics, byte level) -/

/-- ASCII code of the standard base64 alphabet character at index `i < 64`. -/
def b64CharOf (i : Nat) : Nat :=
  if i < 26 then 65 + i
  else if i < 52 then 97 + (i - 26)
  else if i < 62 then 48 + (i - 52)
  else if i = 62 then 43
  else 47

/-- Index of an ASCII code in the standard base64 alphabet, `none` for
non-alphabet bytes (including the padding byte `=` = 61). -/
def b64IdxOf (c : Nat) : Option Nat :=
  if 65 ≤ c ∧ c ≤ 90 then some (c - 65)
  else if 97 ≤ c ∧ c ≤ 122 then some (c - 97 + 26)
  else if 48 ≤ c ∧ c ≤ 57 then some (c - 48 + 52)
  else if c = 43 then some 62
  else if c = 47 then some 63
  else none

/-- Standard base64 encoding of a byte list, with `=` (61) padding:
`Buffer.prototype.toString('base64')`. -/
def b64Encode : List Nat → List Nat
  | [] => []
  | [a] => [b64CharOf (a / 4), b64CharOf (a % 4 * 16), 61, 61]
  | [a, b] => [b64CharOf (a / 4), b64CharOf (a % 4 * 16 + b / 16), b64CharOf (b % 16 * 4), 61]
  | a :: b :: c :: rest =>
      b64CharOf (a / 4) :: b64CharOf (a % 4 * 16 + b / 16) ::
        b64CharOf (b % 16 * 4 + c / 64) :: b64CharOf (c % 64) :: b64Encode rest

/-- Base64 decoding of a list of alphabet indices (values `< 64`):
groups of four indices give three bytes, a trailing group of two or
three indices gives one or two bytes with the extra low bits dropped,
exactly as node's forgiving decoder does. -/
def b64DecodeIdx : List Nat → List Nat
  | a :: b :: c :: d :: rest =>
      (a * 4 + b / 16) :: (b % 16 * 16 + c / 4) :: (c % 4 * 64 + d) :: b64DecodeIdx rest
  | [a, b] => [a * 4 + b / 16]
  | [a, b, c] => [a * 4 + b / 16, b % 16 * 16 + c / 4]
  | _ => []

/-- `Buffer.from(s, 'base64')`: skip non-alphabet bytes (padding `=`
included), then decode the index stream. -/
def b64Decode (l : List Nat) : List Nat :=
  b64DecodeIdx (l.filterMap b64IdxOf)

/-- base64url encoding as produced by `b64urlEncode` in the source:
standard base64 with `+` → `-` (45), `/` → `_` (95), padding stripped. -/
def b64urlEncode (l : List Nat) : List Nat :=
  (b64Encode l).filterMap fun c =>
    if c = 61 then none else if c = 43 then some 45 else if c = 47 then some 95 else some c

/-- `b64urlDecodeToString` in the source: map `-`/`_` back to `+`/`/`
and decode (padding is irrelevant to the forgiving decoder). -/
def b64urlDecode (l : List Nat) : List Nat :=
  b64Decode (l.map fun c => if c = 45 then 43 else if c = 95 then 47 else c)

/-! ## JS `split('.')` at byte level -/

/-- Full split of a byte list on the dot byte 46, exactly as JS
`String.prototype.split('.')` on an ASCII string: every dot starts a
new (possibly empty) segment, and the empty string splits to `[[]]`. -/
def splitOnDot : List Nat → List (List Nat)
  | [] => [[]]
  | c :: rest =>
    if c = 46 then [] :: splitOnDot rest
    else
      match splitOnDot rest with
      | [] => [[c]]
      | h :: t => (c :: h) :: t

/-- `const [a, b] = s.split('.')` followed by the `!a || !b` guard of
`parseStatelessToken`: the first two segments, both required non-empty
(a missing second segment is `undefined`, hence falsy). -/
def split2 (l : List Nat) : Option (List Nat × List Nat) :=
  match splitOnDot l with
  | a :: b :: _ => if a = [] ∨ b = [] then none else some (a, b)
  | _ => none

/-- `const [ivB64, ctB64, tagB64] = enc.split('.')` followed by the
`!ivB64 || !ctB64 || !tagB64` guard of `decryptApiKey`: the first three
segments, all required non-empty; segments beyond the third are ignored
by the destructuring. -/
def split3 (l : List Nat) : Option (List Nat × List Nat × List Nat) :=
  match splitOnDot l with
  | a :: b :: c :: _ => if a = [] ∨ b = [] ∨ c = [] then none else some (a, b, c)
  | _ => none

/-! ## TranslationCache and cache keys -/

/-- `getCacheKey(pageText, targetLanguage)`: base64 of the page text
truncated to 32 characters, then `_`, then the target language. Byte
values 95 = `_`. -/
def getCacheKey (pageText targetLanguage : List Nat) : List Nat :=
  (b64Encode pageText).take 32 ++ 95 :: targetLanguage

/-- The key actually used by the `/api/translate-stream` handler:
`username ++ ":" ++ getCacheKey pageText targetLanguage` (58 = `:`). -/
def userCacheKey (username pageText targetLanguage : List Nat) : List Nat :=
  username ++ 58 :: getCacheKey pageText targetLanguage

/-- The in-process `translationCache` map; first match wins on lookup,
so consing a fresh entry models `Map.prototype.set`. -/
def TranslationCache : Type := List (List Nat × String)

def cacheGet (cache : TranslationCache) (k : List Nat) : Option String :=
  (List.find? (fun e => e.1 == k) cache).map (·.2)

def cacheSet (cache : TranslationCache) (k : List Nat) (v : String) : TranslationCache :=
  (k, v) :: cache

/-! ## CredentialVault (`encryptApiKey` / `decryptApiKey`)

AES-256-GCM is decomposed the way the algorithm itself is: a key-stream
cipher producing/consuming the ciphertext (`ctrEnc`/`ctrDec`) and a tag
function over `(key, iv, ciphertext)` (`tagOf`); `decrypt` recomputes
the tag and releases the plaintext only on a match, which is exactly
what `decipher.setAuthTag` + `decipher.final()` enforce. The SHA-256 of
`deriveKey` is a parameter `hash`. -/

structure GcmPrims where
  ctrEnc : List Nat → List Nat → List Nat → List Nat
  ctrDec : List Nat → List Nat → List Nat → List Nat
  tagOf : List Nat → List Nat → List Nat → List Nat

/-- `encryptApiKey`: fails (throws) on an empty `APP_SECRET`, else
returns `base64(iv) ++ "." ++ base64(ct) ++ "." ++ base64(tag)`. The
fresh random nonce is the explicit argument `iv`. -/
def encryptApiKey (g : GcmPrims) (hash : List Nat → List Nat) (secret iv plain : List Nat) :
    Option (List Nat) :=
  if secret = [] then none
  else
    let key := hash secret
    let ct := g.ctrEnc key iv plain
    let tag := g.tagOf key iv ct
    some (b64Encode iv ++ 46 :: b64Encode ct ++ 46 :: b64Encode tag)

/-- `decryptApiKey`: empty secret or malformed blob or tag mismatch
fails (`none`); otherwise the complete decrypted plaintext. -/
def decryptApiKey (g : GcmPrims) (hash : List Nat → List Nat) (secret blob : List Nat) :
    Option (List Nat) :=
  if secret = [] then none
  else
    match split3 blob with
    | none => none
    | some (ivB64, ctB64, tagB64) =>
      let key := hash secret
      let iv := b64Decode ivB64
      let ct := b64Decode ctB64
      if b64Decode tagB64 = g.tagOf key iv ct then some (g.ctrDec key iv ct) else none

/-! ## Stateless session tokens -/

/-- Decimal digits worker, structurally recursive on a fuel bound so
that it evaluates by kernel reduction; `fuel > n` suffices. -/
def natDecimalAux : Nat → Nat → List Nat
  | 0, _ => []
  | fuel + 1, n => if n < 10 then [48 + n] else natDecimalAux fuel (n / 10) ++ [48 + n % 10]

/-- Decimal ASCII digits of a natural number (48 = `0`), as
`JSON.stringify` prints the integral `exp`. -/
def natDecimal (n : Nat) : List Nat := natDecimalAux (n + 1) n

/-- `JSON.stringify(\x7b u, k, exp \x7d)` for the session payload: the
bytes of `\x7b"u":"<u>","k":"<k>","exp":<exp>\x7d` (34 = `"`, 123/125
are the braces, 117 = `u`, 107 = `k`, `exp` = 101,120,112). -/
def encodeSessionPayload (u k : List Nat) (exp : Nat) : List Nat :=
  [123, 34, 117, 34, 58, 34] ++ u ++ [34, 44, 34, 107, 34, 58, 34] ++ k ++
    [34, 44, 34, 101, 120, 112, 34, 58] ++ natDecimal exp ++ [125]

/-- Strip an expected literal byte sequence from the front. -/
def dropBytes : List Nat → List Nat → Option (List Nat)
  | [], l => some l
  | _ :: _, [] => none
  | e :: ps, x :: xs => if x = e then dropBytes ps xs else none

def isDigitByte (c : Nat) : Bool := decide (48 ≤ c ∧ c ≤ 57)

def digitsVal (l : List Nat) : Nat := l.foldl (fun a c => a * 10 + (c - 48)) 0

/-- `JSON.parse` restricted to the canonical serialization produced by
`createStatelessToken` (the only payloads that reach it: any tampered
payload is rejected by the HMAC comparison before parsing), followed by
the `typeof` shape checks of the source. -/
def parseSessionPayload (l : List Nat) : Option (List Nat × List Nat × Nat) :=
  match dropBytes [123, 34, 117, 34, 58, 34] l with
  | none => none
  | some r1 =>
    let u := r1.takeWhile (· ≠ 34)
    match dropBytes [34, 44, 34, 107, 34, 58, 34] (r1.dropWhile (· ≠ 34)) with
    | none => none
    | some r2 =>
      let k := r2.takeWhile (· ≠ 34)
      match dropBytes [34, 44, 34, 101, 120, 112, 34, 58] (r2.dropWhile (· ≠ 34)) with
      | none => none
      | some r3 =>
        let ds := r3.takeWhile isDigitByte
        if ds = [] then none
        else if r3.dropWhile isDigitByte = [125] then some (u, k, digitsVal ds) else none

/-- `createStatelessToken`: `payloadB64 ++ "." ++ b64url(HMAC(payloadB64))`.
The HMAC-SHA256 digest (raw 32 bytes) is the parameter `mac`; `exp` is
the absolute expiry second computed by the caller. -/
def createStatelessToken (mac : List Nat → List Nat) (u k : List Nat) (exp : Nat) : List Nat :=
  let payloadB64 := b64urlEncode (encodeSessionPayload u k exp)
  payloadB64 ++ 46 :: b64urlEncode (mac payloadB64)

/-- `parseStatelessToken`: split, recompute and compare the signature
(`timingSafeEqualStr` is byte-list equality, functionally), decode and
shape-check the payload, reject `exp <= now`. A pure function of the
token and the clock: it consults no external state by construction. -/
def parseStatelessToken (mac : List Nat → List Nat) (token : List Nat) (now : Nat) :
    Option (List Nat × List Nat) :=
  match split2 token with
  | none => none
  | some (payloadB64, sig) =>
    if b64urlEncode (mac payloadB64) = sig then
      match parseSessionPayload (b64urlDecode payloadB64) with
      | none => none
      | some (u, k, exp) => if exp ≤ now then none else some (u, k)
    else none

/-! ## StreamRelay: the upstream streaming loop -/

inductive SseEvent where
  /-- a forwarded fragment: `data: \x7b content, isDone: false \x7d` -/
  | chunk (content : String)
  /-- the completion terminal: `data: \x7b content: '', isDone: true \x7d` -/
  | done
  /-- the error terminal written by the catch block -/
  | err
deriving DecidableEq

def isTerminal : SseEvent → Bool
  | SseEvent.chunk _ => false
  | SseEvent.done => true
  | SseEvent.err => true

/-- The `for await (const chunk of stream)` loop: each delivered
fragment (`''` models a delta with no content, skipped by
`if (content)`) is appended to the accumulator and forwarded
immediately. Returns the forwarded events and the final accumulator. -/
def streamLoop : List String → String → List SseEvent × String
  | [], acc => ([], acc)
  | c :: rest, acc =>
    if c = "" then streamLoop rest acc
    else
      let r := streamLoop rest (acc ++ c)
      (SseEvent.chunk c :: r.1, r.2)

/-- concatenation of a list of fragments, for stating what the
accumulator holds -/
def joinStrings : List String → String
  | [] => ""
  | s :: rest => s ++ joinStrings rest

structure UpstreamOutcome where
  events : List SseEvent
  cacheWrite : Option String
deriving DecidableEq

/-- The Upstream path of `/api/translate-stream` after streaming has
begun. `delivered` is the list of fragments the provider produced
before either completing (`providerFails = false`) or throwing
(`providerFails = true`, covering both setup and mid-stream failure:
the catch block then emits the single error terminal and skips the
cache write). On completion the terminal `done` event is written and
the accumulator is cached only under `if (fullTranslation)`. -/
def runUpstream (delivered : List String) (providerFails : Bool) : UpstreamOutcome :=
  let r := streamLoop delivered ""
  if providerFails then ⟨r.1 ++ [SseEvent.err], none⟩
  else ⟨r.1 ++ [SseEvent.done], if r.2 = "" then none else some r.2⟩

/-- The same path together with its effect on the translation cache. -/
def runUpstreamWithCache (cache : TranslationCache) (key : List Nat)
    (delivered : List String) (providerFails : Bool) : List SseEvent × TranslationCache :=
  let o := runUpstream delivered providerFails
  (o.events, match o.cacheWrite with
             | some t => cacheSet cache key t
             | none => cache)

/-! ## RateLimiter: in-memory fallback -/

structure MemRec where
  resetAt : Nat
  count : Nat
deriving DecidableEq

/-- Observable outcome of one pass through the middleware: whether
`next()` ran, the response status it set (if any), and the
`X-RateLimit-Remaining` / `X-RateLimit-Reset` header values (if set). -/
structure RateLimitOutcome where
  nextCalled : Bool
  status : Option Nat
  remainingHeader : Option Nat
  resetHeader : Option Nat
deriving DecidableEq

def MemRateState : Type := List (String × MemRec)

def memGet (st : MemRateState) (k : String) : Option MemRec :=
  (List.find? (fun e => e.1 == k) st).map (·.2)

def memSet (st : MemRateState) (k : String) (v : MemRec) : MemRateState :=
  (k, v) :: st

/-- The in-memory fallback branch of `rateLimitOrNext` for one request:
fresh or elapsed window → reset to `(count 1, resetAt now+windowMs)`
and call `next()` (note: no headers are set on this branch); full
window → 429 with both headers; otherwise increment, set both headers,
and call `next()`. -/
def rateLimitOrNextMem (st : MemRateState) (key : String) (now limit windowMs : Nat) :
    RateLimitOutcome × MemRateState :=
  match memGet st key with
  | none => (⟨true, none, none, none⟩, memSet st key ⟨now + windowMs, 1⟩)
  | some r =>
    if r.resetAt ≤ now then (⟨true, none, none, none⟩, memSet st key ⟨now + windowMs, 1⟩)
    else if limit ≤ r.count then
      (⟨false, some 429, some 0, some (r.resetAt / 1000)⟩, st)
    else
      (⟨true, none, some (limit - (r.count + 1)), some (r.resetAt / 1000)⟩,
        memSet st key ⟨r.resetAt, r.count + 1⟩)

/-- A sequence of requests for one key, threaded through the state. -/
def runRequests (st : MemRateState) (key : String) (times : List Nat) (limit windowMs : Nat) :
    List RateLimitOutcome × MemRateState :=
  match times with
  | [] => ([], st)
  | t :: ts =>
    let r := rateLimitOrNextMem st key t limit windowMs
    let rest := runRequests r.2 key ts limit windowMs
    (r.1 :: rest.1, rest.2)

/-! ## Durable (Redis) session store and the login/logout handlers -/

def MAX_ACTIVE_SESSIONS : Nat := 2
def SESSION_TTL_SECONDS : Nat := 86400

/-- Upstash state as the store uses it: `session:<token>` keys with an
absolute expiry second (the TTL makes the key vanish at expiry), plus
the `sessions` membership set. The `session:` key prefix is dropped as
the token is the only variable part. -/
structure RedisState where
  kv : List (String × (String × String) × Nat)
  members : List String

/-- `EXISTS session:<token>` at time `now`: an unexpired entry. -/
def redisHasSession (st : RedisState) (now : Nat) (token : String) : Bool :=
  (List.find? (fun e => e.1 == token && decide (now < e.2.2)) st.kv).isSome

/-- `RedisStorage.setSession`: write the record with TTL and `SADD`
the token to the membership set. -/
def setSession (st : RedisState) (now : Nat) (token u enc : String) (ttl : Nat) : RedisState :=
  { kv := (token, (u, enc), now + ttl) :: st.kv,
    members := if token ∈ st.members then st.members else token :: st.members }

/-- `RedisStorage.deleteSession`: `DEL` the record, `SREM` the token. -/
def deleteSession (st : RedisState) (token : String) : RedisState :=
  { kv := st.kv.filter (fun e => ¬ e.1 = token),
    members := st.members.erase token }

/-- `RedisStorage.pruneSessions`: drop members whose record expired. -/
def pruneSessions (st : RedisState) (now : Nat) : RedisState :=
  { st with members := st.members.filter (redisHasSession st now) }

/-- `RedisStorage.countActiveSessions`: prune, then `SCARD sessions`.
Returns the pruned state together with the count, since pruning is a
store mutation. -/
def countActiveSessions (st : RedisState) (now : Nat) : RedisState × Nat :=
  let st' := pruneSessions st now
  (st', st'.members.length)

structure LoginCfg where
  appSecret : String
  maraPassword : String
  baruPassword : String

/-- A response as the login/logout handlers build it: status plus the
`error` / `token` / `username` body fields that the claims observe. -/
structure HttpReply where
  status : Nat
  error : Option String
  token : Option String
  username : Option String
deriving DecidableEq

/-- `String.prototype.trim()` at the character level (whitespace
stripped from both ends), written so it evaluates by kernel
reduction. -/
def trimString (s : String) : String :=
  String.mk (((s.data.dropWhile Char.isWhitespace).reverse.dropWhile Char.isWhitespace).reverse)

/-- `username.trim().toLowerCase()`; all roster usernames are ASCII,
where JS and Unicode lowercasing agree. -/
def normalizeUsername (s : String) : String :=
  String.mk ((((s.data.dropWhile Char.isWhitespace).reverse.dropWhile
    Char.isWhitespace).reverse).map Char.toLower)

/-- `s.startsWith(p)` on the underlying characters. -/
def strStartsWith (p s : String) : Bool := p.data.isPrefixOf s.data

def isBcryptHash (v : String) : Bool := strStartsWith "$2" v

/-- `verifyPassword`: empty configured secret always fails; a `$2`
hash goes through `bcrypt.compare` (the parameter `bc`); otherwise a
plain string comparison. -/
def verifyPassword (bc : String → String → Bool) (plain configured : String) : Bool :=
  if configured = "" then false
  else if isBcryptHash configured then bc plain configured
  else plain = configured

/-- The `/api/auth/login` handler. `bc` is `bcrypt.compare`, `encFn`
is `encryptApiKey` applied to the server secret (total here because
the handler has already checked `APP_SECRET` is set), `mkTok` builds
the stateless token in the storeless branch, `newToken` is the fresh
`crypto.randomBytes(32).toString('hex')` of the durable branch. The
best-effort login e-mail dispatch is omitted: it only adds
`emailQueued`-style fields to the success body. Inputs are typed
strings, so the `typeof` shape check of the source always passes. -/
def loginHandler (cfg : LoginCfg) (bc : String → String → Bool) (encFn : String → String)
    (mkTok : String → String → String) (redisPresent : Bool) (st : RedisState) (now : Nat)
    (username password openaiApiKey : String) (newToken : String) : HttpReply × RedisState :=
  if cfg.appSecret = "" then
    (⟨500, some "Server misconfigured: missing APP_SECRET", none, none⟩, st)
  else if ¬ (strStartsWith "sk-" (trimString openaiApiKey)) then
    (⟨400, some "OpenAI API key must start with sk-", none, none⟩, st)
  else
    let cleanUsername := normalizeUsername username
    if cleanUsername ≠ "mara" ∧ cleanUsername ≠ "baru" then
      (⟨401, some "Invalid credentials", none, none⟩, st)
    else
      let configured := if cleanUsername = "mara" then cfg.maraPassword else cfg.baruPassword
      if ¬ verifyPassword bc password configured then
        (⟨401, some "Invalid credentials", none, none⟩, st)
      else
        let apiKeyEnc := encFn (trimString openaiApiKey)
        if redisPresent then
          let pr := countActiveSessions st now
          if MAX_ACTIVE_SESSIONS ≤ pr.2 then
            (⟨429, some "Maximum 2 active users already logged in", none, none⟩, pr.1)
          else
            (⟨200, none, some newToken, some cleanUsername⟩,
              setSession pr.1 now newToken cleanUsername apiKeyEnc SESSION_TTL_SECONDS)
        else
          (⟨200, none, some (mkTok cleanUsername apiKeyEnc), some cleanUsername⟩, st)

/-- The `/api/auth/logout` handler body (after `requireAuth`). -/
def logoutHandler (st : RedisState) (token : String) : HttpReply × RedisState :=
  (⟨200, none, none, none⟩, deleteSession st token)

/-! ## Concrete instantiations of the external crypto primitives

Used to evaluate the theorems at concrete inputs (witnesses and
counterexamples). The counterexamples below do not depend on any
property of the primitives beyond the blob framing, so any
instantiation exhibits them. -/

/-- concrete server secret, the byte of `"k"` -/
def sConc : List Nat := [107]

/-- concrete plaintext credential, the bytes of `"abc"` -/
def xConc : List Nat := [97, 98, 99]

/-- a concrete 12-byte GCM nonce -/
def ivConc : List Nat := [0, 1, 2, 3, 4, 5, 6, 7, 8, 9, 10, 11]

def keyConc : List Nat := List.replicate 32 7

def tagA : List Nat := List.replicate 16 1

def tagB : List Nat := List.replicate 16 2

/-- a 32-byte digest function: maps the concrete secret to `keyConc`
and everything else to a distinct key -/
def toyHash (s : List Nat) : List Nat :=
  if s = sConc then keyConc else List.replicate 32 9

/-- a GCM instantiation: the key stream is the identity and the tag
distinguishes the one honest `(key, ciphertext)` pair -/
def toyG : GcmPrims where
  ctrEnc := fun _ _ p => p
  ctrDec := fun _ _ c => c
  tagOf := fun k _ c => if k = keyConc ∧ c = xConc then tagA else tagB

/-- the blob `encryptApiKey` produces at the concrete inputs -/
def blobConc : List Nat := (encryptApiKey toyG toyHash sConc ivConc xConc).getD []

/-- concrete session username bytes (`"a"`) for token witnesses -/
def uConc : List Nat := [97]

/-- concrete encrypted-credential bytes (`"k"`) for token witnesses -/
def kConc : List Nat := [107]

/-- the base64url payload of the concrete token -/
def payloadConc : List Nat := b64urlEncode (encodeSessionPayload uConc kConc 9)

/-- a 32-byte HMAC digest function distinguishing the concrete payload -/
def toyMac (q : List Nat) : List Nat :=
  if q = payloadConc then List.replicate 32 5 else List.replicate 32 6

/-! ## Lemmas: base64 -/

theorem b64IdxOf_b64CharOf : ∀ i < 64, b64IdxOf (b64CharOf i) = some i := by decide

theorem b64IdxOf_61 : b64IdxOf 61 = none := by decide

theorem b64Encode_mem {c : Nat} {l : List Nat} (hl : ∀ b ∈ l, b < 256) (h : c ∈ b64Encode l) :
    c = 61 ∨ ∃ i, i < 64 ∧ c = b64CharOf i := by
  induction l using b64Encode.induct with
  | case1 => simp [b64Encode] at h
  | case2 a =>
    have ha : a < 256 := hl a (by simp)
    simp only [b64Encode, List.mem_cons, List.not_mem_nil, or_false, or_self] at h
    rcases h with h | h | h
    · exact Or.inr ⟨a / 4, by omega, h⟩
    · exact Or.inr ⟨a % 4 * 16, by omega, h⟩
    · exact Or.inl h
  | case3 a b =>
    have ha : a < 256 := hl a (by simp)
    have hb : b < 256 := hl b (by simp)
    simp only [b64Encode, List.mem_cons, List.not_mem_nil, or_false] at h
    rcases h with h | h | h | h
    · exact Or.inr ⟨a / 4, by omega, h⟩
    · exact Or.inr ⟨a % 4 * 16 + b / 16, by omega, h⟩
    · exact Or.inr ⟨b % 16 * 4, by omega, h⟩
    · exact Or.inl h
  | case4 a b c rest ih =>
    have ha : a < 256 := hl a (by simp)
    have hb : b < 256 := hl b (by simp)
    have hc : c < 256 := hl c (by simp)
    simp only [b64Encode, List.mem_cons] at h
    rcases h with h | h | h | h | h
    · exact Or.inr ⟨a / 4, by omega, h⟩
    · exact Or.inr ⟨a % 4 * 16 + b / 16, by omega, h⟩
    · exact Or.inr ⟨b % 16 * 4 + c / 64, by omega, h⟩
    · exact Or.inr ⟨c % 64, by omega, h⟩
    · exact ih (fun x hx => hl x (by simp [hx])) h

theorem b64Decode_b64Encode {l : List Nat} (h : ∀ b ∈ l, b < 256) :
    b64Decode (b64Encode l) = l := by
  induction l using b64Encode.induct with
  | case1 => rfl
  | case2 a =>
    have ha : a < 256 := h a (by simp)
    have e1 : a / 4 * 4 + a % 4 * 16 / 16 = a := by omega
    simp only [b64Encode, b64Decode, List.filterMap_cons,
      b64IdxOf_b64CharOf (a / 4) (by omega), b64IdxOf_b64CharOf (a % 4 * 16) (by omega),
      b64IdxOf_61, List.filterMap_nil, b64DecodeIdx, e1]
  | case3 a b =>
    have ha : a < 256 := h a (by simp)
    have hb : b < 256 := h b (by simp)
    have e1 : a / 4 * 4 + (a % 4 * 16 + b / 16) / 16 = a := by omega
    have e2 : (a % 4 * 16 + b / 16) % 16 * 16 + b % 16 * 4 / 4 = b := by omega
    simp only [b64Encode, b64Decode, List.filterMap_cons,
      b64IdxOf_b64CharOf (a / 4) (by omega),
      b64IdxOf_b64CharOf (a % 4 * 16 + b / 16) (by omega),
      b64IdxOf_b64CharOf (b % 16 * 4) (by omega),
      b64IdxOf_61, List.filterMap_nil, b64DecodeIdx, e1, e2]
  | case4 a b c rest ih =>
    have ha : a < 256 := h a (by simp)
    have hb : b < 256 := h b (by simp)
    have hc : c < 256 := h c (by simp)
    have hrest : ∀ x ∈ rest, x < 256 := fun x hx => h x (by simp [hx])
    have e1 : a / 4 * 4 + (a % 4 * 16 + b / 16) / 16 = a := by omega
    have e2 : (a % 4 * 16 + b / 16) % 16 * 16 + (b % 16 * 4 + c / 64) / 4 = b := by omega
    have e3 : (b % 16 * 4 + c / 64) % 4 * 64 + c % 64 = c := by omega
    have ihs := ih hrest
    simp only [b64Decode] at ihs
    simp only [b64Encode, b64Decode, List.filterMap_cons,
      b64IdxOf_b64CharOf (a / 4) (by omega),
      b64IdxOf_b64CharOf (a % 4 * 16 + b / 16) (by omega),
      b64IdxOf_b64CharOf (b % 16 * 4 + c / 64) (by omega),
      b64IdxOf_b64CharOf (c % 64) (by omega), b64DecodeIdx, e1, e2, e3, ihs]

theorem b64urlDecode_b64urlEncode {l : List Nat} (h : ∀ b ∈ l, b < 256) :
    b64urlDecode (b64urlEncode l) = l := by
  have key : b64urlDecode (b64urlEncode l) = b64Decode (b64Encode l) := by
    unfold b64urlDecode b64urlEncode b64Decode
    rw [List.map_filterMap, List.filterMap_filterMap]
    congr 1
    apply List.filterMap_congr
    intro c hc
    rcases b64Encode_mem h hc with rfl | ⟨i, hi, rfl⟩
    · rfl
    · clear hc
      revert i
      decide
  rw [key]
  exact b64Decode_b64Encode h

theorem b64urlEncode_ne_46 {c : Nat} {l : List Nat} (hl : ∀ b ∈ l, b < 256)
    (h : c ∈ b64urlEncode l) : c ≠ 46 := by
  unfold b64urlEncode at h
  rw [List.mem_filterMap] at h
  obtain ⟨a, ha, hfa⟩ := h
  rcases b64Encode_mem hl ha with rfl | ⟨i, hi, rfl⟩
  · simp at hfa
  · intro hc46
    subst hc46
    revert hfa
    clear ha
    revert i
    decide

theorem b64Encode_append {l m : List Nat} (h : 3 ∣ l.length) :
    b64Encode (l ++ m) = b64Encode l ++ b64Encode m := by
  induction l using b64Encode.induct with
  | case1 => simp [b64Encode]
  | case2 a => simp only [List.length_cons, List.length_nil] at h; omega
  | case3 a b => simp only [List.length_cons, List.length_nil] at h; omega
  | case4 a b c rest ih =>
    have h3 : 3 ∣ rest.length := by
      simp only [List.length_cons] at h
      omega
    simp only [List.cons_append, b64Encode, List.append_eq, List.cons.injEq, true_and]
    rw [ih h3]

theorem b64Encode_length {l : List Nat} (h : 3 ∣ l.length) :
    (b64Encode l).length = l.length / 3 * 4 := by
  induction l using b64Encode.induct with
  | case1 => rfl
  | case2 a => simp at h
  | case3 a b => simp at h; omega
  | case4 a b c rest ih =>
    have h3 : 3 ∣ rest.length := by
      simp only [List.length_cons] at h
      omega
    simp only [b64Encode, List.length_cons, ih h3]
    omega

/-! ## Lemmas: splitting and scanning -/

theorem splitOnDot_ne_nil (l : List Nat) : splitOnDot l ≠ [] := by
  induction l using splitOnDot.induct with
  | case1 => simp [splitOnDot]
  | case2 rest ih => simp [splitOnDot]
  | case3 c rest hc hrest ih => exact absurd hrest ih
  | case4 c rest hc h t hrest ih => simp [splitOnDot, hc, hrest]

theorem splitOnDot_no_dot {l : List Nat} (h : ∀ c ∈ l, c ≠ 46) : splitOnDot l = [l] := by
  induction l with
  | nil => rfl
  | cons c rest ih =>
    have hc : c ≠ 46 := h c (by simp)
    have hr := ih fun x hx => h x (by simp [hx])
    simp [splitOnDot, hc, hr]

theorem splitOnDot_append {a r : List Nat} (h : ∀ c ∈ a, c ≠ 46) :
    splitOnDot (a ++ 46 :: r) = a :: splitOnDot r := by
  induction a with
  | nil => simp [splitOnDot]
  | cons c a' ih =>
    have hc : c ≠ 46 := h c (by simp)
    have ha' := ih fun x hx => h x (by simp [hx])
    simp [splitOnDot, hc, ha']

theorem takeWhile_append_stop {p : Nat → Bool} {u : List Nat} {x : Nat} {r : List Nat}
    (hu : ∀ c ∈ u, p c = true) (hx : p x = false) :
    (u ++ x :: r).takeWhile p = u := by
  induction u with
  | nil => simp [List.takeWhile, hx]
  | cons c u' ih =>
    have hc := hu c (by simp)
    have hu' := ih fun y hy => hu y (by simp [hy])
    simp [List.takeWhile, hc, hu']

theorem dropWhile_append_stop {p : Nat → Bool} {u : List Nat} {x : Nat} {r : List Nat}
    (hu : ∀ c ∈ u, p c = true) (hx : p x = false) :
    (u ++ x :: r).dropWhile p = x :: r := by
  induction u with
  | nil => simp [List.dropWhile, hx]
  | cons c u' ih =>
    have hc := hu c (by simp)
    have hu' := ih fun y hy => hu y (by simp [hy])
    simp [List.dropWhile, hc, hu']

theorem takeWhile_all {p : Nat → Bool} {u : List Nat} (hu : ∀ c ∈ u, p c = true) :
    u.takeWhile p = u := by
  induction u with
  | nil => rfl
  | cons c u' ih =>
    have hc := hu c (by simp)
    have hu' := ih fun y hy => hu y (by simp [hy])
    simp [List.takeWhile, hc, hu']

/-! ## Lemmas: cache map -/

theorem cacheGet_cacheSet_self (S : TranslationCache) (k : List Nat) (v : String) :
    cacheGet (cacheSet S k v) k = some v := by
  simp [cacheGet, cacheSet, List.find?_cons]

theorem cacheGet_cacheSet_ne (S : TranslationCache) {k k' : List Nat} (v : String)
    (h : k ≠ k') : cacheGet (cacheSet S k v) k' = cacheGet S k' := by
  have hb : (k == k') = false := by simp [h]
  simp [cacheGet, cacheSet, List.find?_cons, hb]

/-- the first 32 base64 characters depend only on the first 24 bytes -/
theorem b64Encode_take_32 {l : List Nat} (h : 24 ≤ l.length) :
    (b64Encode l).take 32 = b64Encode (l.take 24) := by
  have hsplit : l = l.take 24 ++ l.drop 24 := (List.take_append_drop 24 l).symm
  have hlen : (l.take 24).length = 24 := by
    rw [List.length_take]
    omega
  have hdvd : 3 ∣ (l.take 24).length := by rw [hlen]; decide
  have hlen32 : (b64Encode (l.take 24)).length = 32 := by
    rw [b64Encode_length hdvd, hlen]
  calc (b64Encode l).take 32
      = (b64Encode (l.take 24 ++ l.drop 24)).take 32 := by rw [← hsplit]
    _ = (b64Encode (l.take 24) ++ b64Encode (l.drop 24)).take 32 := by
        rw [b64Encode_append hdvd]
    _ = b64Encode (l.take 24) := by
        rw [← hlen32, List.take_left]

/-! ## Claim theorems -/

/-- **C1.** The translate-stream handler's cache key includes the
requesting user's identity as a prefix, and for distinct authenticated
users (the fixed roster is `mara` and `baru`) the keys of any two
requests are distinct, so an entry cached for user A is invisible to
every lookup user B performs — B never receives A's cached
translation, even for byte-identical `(content, targetLanguage)`. -/
theorem c1_cache_key_user_isolation (A B : List Nat)
    (hA : A = [109, 97, 114, 97] ∨ A = [98, 97, 114, 117])
    (hB : B = [109, 97, 114, 97] ∨ B = [98, 97, 114, 117])
    (hAB : A ≠ B) :
    (∀ c l, userCacheKey A c l = A ++ 58 :: getCacheKey c l) ∧
    (∀ c l c' l', userCacheKey A c l ≠ userCacheKey B c' l') ∧
    (∀ (S : TranslationCache) (c l c' l' : List Nat) (v : String),
      cacheGet (cacheSet S (userCacheKey A c l) v) (userCacheKey B c' l') =
        cacheGet S (userCacheKey B c' l')) := by
  have hne : ∀ c l c' l', userCacheKey A c l ≠ userCacheKey B c' l' := by
    intro c l c' l'
    rcases hA with rfl | rfl <;> rcases hB with rfl | rfl
    · exact absurd rfl hAB
    · simp [userCacheKey]
    · simp [userCacheKey]
    · exact absurd rfl hAB
  refine ⟨fun c l => rfl, hne, fun S c l c' l' v => ?_⟩
  exact cacheGet_cacheSet_ne S v (hne c l c' l')

/-- Witness for C1 at the concrete roster users, a concrete content
`"hi"` and language `"en"`, and the empty cache. -/
theorem c1_cache_key_user_isolation_witness :
    userCacheKey [109, 97, 114, 97] [104, 105] [101, 110] ≠
      userCacheKey [98, 97, 114, 117] [104, 105] [101, 110] ∧
    cacheGet (cacheSet [] (userCacheKey [109, 97, 114, 97] [104, 105] [101, 110]) "T")
      (userCacheKey [98, 97, 114, 117] [104, 105] [101, 110]) = none := by
  have h := c1_cache_key_user_isolation [109, 97, 114, 97] [98, 97, 114, 117]
    (Or.inl rfl) (Or.inr rfl) (by decide)
  exact ⟨h.2.1 [104, 105] [101, 110] [104, 105] [101, 110],
    by rw [h.2.2 [] [104, 105] [101, 110] [104, 105] [101, 110] "T"]; rfl⟩

/-- **C10.** The cache key depends on the request content only through
`base64(content).slice(0, 32)`, i.e. only through the content's first
24 bytes: two contents of length ≥ 24 agreeing on their first 24 bytes
produce the same key for every user and language, and a translation
cached for the first content is returned for the second. -/
theorem c10_cache_key_only_first_24_bytes (c1 c2 : List Nat)
    (h1 : 24 ≤ c1.length) (h2 : 24 ≤ c2.length) (hpre : c1.take 24 = c2.take 24) :
    (∀ u lang, userCacheKey u c1 lang = userCacheKey u c2 lang) ∧
    (∀ u lang (S : TranslationCache) (v : String),
      cacheGet (cacheSet S (userCacheKey u c1 lang) v) (userCacheKey u c2 lang) = some v) := by
  have hkey : ∀ u lang, userCacheKey u c1 lang = userCacheKey u c2 lang := by
    intro u lang
    unfold userCacheKey getCacheKey
    rw [b64Encode_take_32 h1, b64Encode_take_32 h2, hpre]
  refine ⟨hkey, fun u lang S v => ?_⟩
  rw [hkey u lang]
  exact cacheGet_cacheSet_self S _ v

/-- Witness for C10: two different 25-byte contents sharing their first
24 bytes collide, and the lookup for the second returns the entry
stored for the first. -/
theorem c10_cache_key_only_first_24_bytes_witness :
    List.replicate 24 65 ++ [66] ≠ List.replicate 24 65 ++ [67] ∧
    cacheGet (cacheSet [] (userCacheKey [109, 97, 114, 97] (List.replicate 24 65 ++ [66]) [101, 110]) "T")
      (userCacheKey [109, 97, 114, 97] (List.replicate 24 65 ++ [67]) [101, 110]) = some "T" := by
  refine ⟨by decide, ?_⟩
  exact (c10_cache_key_only_first_24_bytes (List.replicate 24 65 ++ [66])
    (List.replicate 24 65 ++ [67]) (by decide) (by decide) (by decide)).2
    [109, 97, 114, 97] [101, 110] [] "T"

/-! ## Lemmas: stream relay -/

theorem streamLoop_spec (ds : List String) (acc : String) :
    streamLoop ds acc =
      ((ds.filter (fun c => c ≠ "")).map SseEvent.chunk,
        acc ++ joinStrings (ds.filter (fun c => c ≠ ""))) := by
  induction ds generalizing acc with
  | nil => simp [streamLoop, joinStrings]
  | cons c rest ih =>
    by_cases hc : c = ""
    · subst hc
      simp [streamLoop, ih]
    · simp only [streamLoop, ih (acc ++ c), List.filter_cons, hc,
        decide_not, decide_False, Bool.not_false, if_true, if_false, List.map_cons,
        joinStrings, Prod.mk.injEq]
      exact ⟨trivial, String.append_assoc acc c _⟩

theorem filter_isTerminal_chunks (xs : List String) :
    ((xs.map SseEvent.chunk).filter isTerminal) = [] := by
  induction xs with
  | nil => rfl
  | cons x rest ih => simp [List.filter, isTerminal, ih]

/-- **C3 counterexample.** A provider stream that completes after
delivering no content fragments: the single empty terminal chunk is
emitted, but nothing is written to the TranslationCache — the
`if (fullTranslation)` guard skips the write when the accumulator is
empty, contradicting the claim that on completion the full accumulator
is always written under the request's key. -/
theorem c3_stream_counterexample :
    (runUpstream [] false).events = [SseEvent.done] ∧
    (runUpstream [] false).cacheWrite = none ∧
    (∀ (cache : TranslationCache) (key : List Nat),
      (runUpstreamWithCache cache key [] false).2 = cache) := by
  exact ⟨rfl, rfl, fun cache key => rfl⟩

/-- **C3 (amended).** On provider completion the forwarded fragments
are followed by exactly one empty terminal chunk, and the full
accumulator is written to the TranslationCache under the request's key
*provided it is non-empty* (a stream completing with no content writes
nothing). On provider failure — at setup or mid-stream — the caller
observes exactly the already-forwarded fragments followed by one
error-bearing terminal event, and the cache is left untouched. Exactly
one terminal event is emitted in every case. -/
theorem c3_stream_terminal_and_cache (delivered : List String) (providerFails : Bool) :
    ((runUpstream delivered providerFails).events =
        (delivered.filter (fun c => c ≠ "")).map SseEvent.chunk ++
          [if providerFails then SseEvent.err else SseEvent.done]) ∧
    (providerFails = false →
      (joinStrings (delivered.filter (fun c => c ≠ "")) ≠ "" →
        (runUpstream delivered providerFails).cacheWrite =
          some (joinStrings (delivered.filter (fun c => c ≠ "")))) ∧
      (joinStrings (delivered.filter (fun c => c ≠ "")) = "" →
        (runUpstream delivered providerFails).cacheWrite = none)) ∧
    (providerFails = true →
      (runUpstream delivered providerFails).cacheWrite = none ∧
      ∀ (cache : TranslationCache) (key : List Nat),
        (runUpstreamWithCache cache key delivered providerFails).2 = cache) ∧
    ((runUpstream delivered providerFails).events.filter isTerminal).length = 1 := by
  have hs := streamLoop_spec delivered ""
  have hfst : (streamLoop delivered "").1 = (delivered.filter (fun c => c ≠ "")).map SseEvent.chunk := by
    rw [hs]
  have hsnd : (streamLoop delivered "").2 = joinStrings (delivered.filter (fun c => c ≠ "")) := by
    rw [hs]
    exact String.empty_append _
  have hterm : ∀ e : SseEvent, isTerminal e = true →
      ((((delivered.filter (fun c => c ≠ "")).map SseEvent.chunk) ++ [e]).filter isTerminal).length = 1 := by
    intro e he
    rw [List.filter_append, filter_isTerminal_chunks]
    simp [List.filter, he]
  cases providerFails with
  | true =>
    refine ⟨?_, by intro h; exact absurd h (by decide), fun _ => ⟨?_, fun cache key => ?_⟩, ?_⟩
    · simp only [runUpstream, if_true, hfst]
    · simp only [runUpstream, if_true]
    · simp only [runUpstreamWithCache, runUpstream, if_true]
    · simp only [runUpstream, if_true, hfst]
      exact hterm SseEvent.err rfl
  | false =>
    refine ⟨?_, fun _ => ⟨?_, ?_⟩, by intro h; exact absurd h (by decide), ?_⟩
    · simp only [runUpstream, if_false, Bool.false_eq_true, hfst]
    · intro hne
      simp only [runUpstream, Bool.false_eq_true, if_false, hsnd, if_neg hne]
    · intro heq
      simp only [runUpstream, Bool.false_eq_true, if_false, hsnd, if_pos heq]
    · simp only [runUpstream, Bool.false_eq_true, if_false, hfst]
      exact hterm SseEvent.done rfl

/-- Witness for C3 at a concrete delivered-fragment list, for both the
completing and the failing provider. -/
theorem c3_stream_terminal_and_cache_witness :
    (runUpstream ["a", "", "b"] false).events =
      [SseEvent.chunk "a", SseEvent.chunk "b", SseEvent.done] ∧
    (runUpstream ["a", "", "b"] false).cacheWrite = some "ab" ∧
    (runUpstream ["a", "", "b"] true).events =
      [SseEvent.chunk "a", SseEvent.chunk "b", SseEvent.err] ∧
    (runUpstream ["a", "", "b"] true).cacheWrite = none := by
  have hc := c3_stream_terminal_and_cache ["a", "", "b"] false
  have hf := c3_stream_terminal_and_cache ["a", "", "b"] true
  refine ⟨?_, ?_, ?_, (hf.2.2.1 rfl).1⟩
  · rw [hc.1]; rfl
  · rw [(hc.2.1 rfl).1 (by decide)]; rfl
  · rw [hf.1]; rfl

/-! ## Lemmas: in-memory rate limiter -/

theorem memGet_memSet_self (st : MemRateState) (k : String) (v : MemRec) :
    memGet (memSet st k v) k = some v := by
  simp [memGet, memSet, List.find?_cons]

theorem runRequests_allowed_within (key : String) (now limit windowMs : Nat)
    (hW : 0 < windowMs) :
    ∀ (j c : Nat) (st : MemRateState), memGet st key = some ⟨now + windowMs, c⟩ →
      c + j ≤ limit →
      (∀ o ∈ (runRequests st key (List.replicate j now) limit windowMs).1,
        o.nextCalled = true) ∧
      memGet (runRequests st key (List.replicate j now) limit windowMs).2 key =
        some ⟨now + windowMs, c + j⟩ := by
  intro j
  induction j with
  | zero =>
    intro c st hm hc
    exact ⟨by simp [runRequests], by simpa [runRequests] using hm⟩
  | succ j ih =>
    intro c st hm hc
    rw [List.replicate_succ]
    have hstep : rateLimitOrNextMem st key now limit windowMs =
        (⟨true, none, some (limit - (c + 1)), some ((now + windowMs) / 1000)⟩,
          memSet st key ⟨now + windowMs, c + 1⟩) := by
      simp only [rateLimitOrNextMem, hm]
      rw [if_neg (by omega), if_neg (by omega)]
    have hmem2 : memGet (memSet st key ⟨now + windowMs, c + 1⟩) key =
        some ⟨now + windowMs, c + 1⟩ := memGet_memSet_self st key _
    have hrec := ih (c + 1) (memSet st key ⟨now + windowMs, c + 1⟩) hmem2 (by omega)
    have hcj : c + 1 + j = c + (j + 1) := by omega
    rw [hcj] at hrec
    simp only [runRequests, hstep]
    refine ⟨?_, hrec.2⟩
    intro o ho
    rcases List.mem_cons.mp ho with rfl | ho'
    · rfl
    · exact hrec.1 o ho'

/-- **C5.** The in-memory rate-limit fallback: a missing or elapsed
window record is replaced by `(count 1, resetAt now+windowMs)` and the
request is allowed; within the window the request is allowed iff the
incremented count stays `≤ limit` (the count is stored only when
allowed; a denial leaves the record untouched and answers 429).
Consequently, starting from an empty table, the first `limit` requests
inside one window are all allowed and the `(limit+1)`-th is denied, and
once `resetAt` has passed, a request is allowed again with the counter
reset to 1. -/
theorem c5_mem_rate_limit_window (st : MemRateState) (key : String)
    (now limit windowMs : Nat) (hL : 0 < limit) (hW : 0 < windowMs) :
    (memGet st key = none →
      rateLimitOrNextMem st key now limit windowMs =
        (⟨true, none, none, none⟩, memSet st key ⟨now + windowMs, 1⟩)) ∧
    (∀ r, memGet st key = some r → r.resetAt ≤ now →
      rateLimitOrNextMem st key now limit windowMs =
        (⟨true, none, none, none⟩, memSet st key ⟨now + windowMs, 1⟩) ∧
      memGet (rateLimitOrNextMem st key now limit windowMs).2 key =
        some ⟨now + windowMs, 1⟩) ∧
    (∀ r, memGet st key = some r → now < r.resetAt →
      ((rateLimitOrNextMem st key now limit windowMs).1.nextCalled = true ↔
        r.count + 1 ≤ limit) ∧
      (r.count + 1 ≤ limit →
        rateLimitOrNextMem st key now limit windowMs =
          (⟨true, none, some (limit - (r.count + 1)), some (r.resetAt / 1000)⟩,
            memSet st key ⟨r.resetAt, r.count + 1⟩)) ∧
      (limit ≤ r.count →
        rateLimitOrNextMem st key now limit windowMs =
          (⟨false, some 429, some 0, some (r.resetAt / 1000)⟩, st))) ∧
    ((∀ o ∈ (runRequests [] key (List.replicate limit now) limit windowMs).1,
        o.nextCalled = true) ∧
      (rateLimitOrNextMem (runRequests [] key (List.replicate limit now) limit windowMs).2
          key now limit windowMs).1 =
        ⟨false, some 429, some 0, some ((now + windowMs) / 1000)⟩) := by
  refine ⟨?_, ?_, ?_, ?_⟩
  · intro hm
    simp [rateLimitOrNextMem, hm]
  · intro r hm hr
    have hstep : rateLimitOrNextMem st key now limit windowMs =
        (⟨true, none, none, none⟩, memSet st key ⟨now + windowMs, 1⟩) := by
      simp only [rateLimitOrNextMem, hm]
      rw [if_pos hr]
    exact ⟨hstep, by rw [hstep]; exact memGet_memSet_self st key _⟩
  · intro r hm hr
    by_cases hcount : limit ≤ r.count
    · have hstep : rateLimitOrNextMem st key now limit windowMs =
          (⟨false, some 429, some 0, some (r.resetAt / 1000)⟩, st) := by
        simp only [rateLimitOrNextMem, hm]
        rw [if_neg (by omega), if_pos hcount]
      refine ⟨?_, fun hcc => by omega, fun _ => hstep⟩
      rw [hstep]
      simp
      omega
    · have hstep : rateLimitOrNextMem st key now limit windowMs =
          (⟨true, none, some (limit - (r.count + 1)), some (r.resetAt / 1000)⟩,
            memSet st key ⟨r.resetAt, r.count + 1⟩) := by
        simp only [rateLimitOrNextMem, hm]
        rw [if_neg (by omega), if_neg hcount]
      refine ⟨?_, fun _ => hstep, fun hcc => by omega⟩
      rw [hstep]
      simp
      omega
  · obtain ⟨l', rfl⟩ : ∃ l', limit = l' + 1 := ⟨limit - 1, by omega⟩
    rw [List.replicate_succ]
    have hfirst : rateLimitOrNextMem [] key now (l' + 1) windowMs =
        (⟨true, none, none, none⟩, memSet [] key ⟨now + windowMs, 1⟩) := by
      simp [rateLimitOrNextMem, memGet]
    have hmem1 : memGet (memSet [] key ⟨now + windowMs, 1⟩) key =
        some ⟨now + windowMs, 1⟩ := memGet_memSet_self [] key _
    have hrec := runRequests_allowed_within key now (l' + 1) windowMs hW l' 1 _ hmem1
      (by omega)
    simp only [runRequests, hfirst]
    have hone : (1 : Nat) + l' = l' + 1 := by omega
    rw [hone] at hrec
    refine ⟨?_, ?_⟩
    · intro o ho
      rcases List.mem_cons.mp ho with rfl | ho'
      · rfl
      · exact hrec.1 o ho'
    · simp only [rateLimitOrNextMem, hrec.2]
      rw [if_neg (by omega), if_pos (by omega)]

/-- Witness for C5 at `limit = 2`, `windowMs = 1000`: two requests at
`now = 0` are allowed, the third is denied with 429, and a request
after the window resets the counter to 1. -/
theorem c5_mem_rate_limit_window_witness :
    (∀ o ∈ (runRequests [] "translate:ip" (List.replicate 2 0) 2 1000).1,
      o.nextCalled = true) ∧
    (rateLimitOrNextMem (runRequests [] "translate:ip" (List.replicate 2 0) 2 1000).2
        "translate:ip" 0 2 1000).1 =
      ⟨false, some 429, some 0, some 1⟩ ∧
    rateLimitOrNextMem [("translate:ip", ⟨1000, 2⟩)] "translate:ip" 1000 2 1000 =
      (⟨true, none, none, none⟩, memSet [("translate:ip", ⟨1000, 2⟩)] "translate:ip" ⟨2000, 1⟩) := by
  have h := c5_mem_rate_limit_window [] "translate:ip" 0 2 1000 (by decide) (by decide)
  have h2 := c5_mem_rate_limit_window [("translate:ip", ⟨1000, 2⟩)] "translate:ip" 1000 2 1000
    (by decide) (by decide)
  exact ⟨h.2.2.2.1, h.2.2.2.2, ((h2.2.1 ⟨1000, 2⟩ rfl (by decide)).1)⟩

/-- **C6 counterexample.** The first request of a fresh window in the
in-memory fallback is allowed (`next()` runs) but the response carries
neither `X-RateLimit-Remaining` nor `X-RateLimit-Reset`: the reset
branch returns before setting any header, contradicting "always sets
remaining-quota and reset-time regardless of allow/deny outcome". -/
theorem c6_rate_limit_headers_counterexample :
    (rateLimitOrNextMem [] "translate:203.0.113.7" 1000 30 60000).1.nextCalled = true ∧
    (rateLimitOrNextMem [] "translate:203.0.113.7" 1000 30 60000).1.remainingHeader = none ∧
    (rateLimitOrNextMem [] "translate:203.0.113.7" 1000 30 60000).1.resetHeader = none := by
  exact ⟨rfl, rfl, rfl⟩

/-- **C6 (amended).** In the in-memory fallback, every denial responds
429 with both rate-limit headers set and without calling `next()`, and
every in-window request (allowed or denied) carries both headers; but
an allowed request that starts or resets a window is passed on with no
rate-limit headers at all. Allowed requests never get a status set by
the middleware. -/
theorem c6_rate_limit_headers (st : MemRateState) (key : String) (now limit windowMs : Nat) :
    ((rateLimitOrNextMem st key now limit windowMs).1.nextCalled = false →
      (rateLimitOrNextMem st key now limit windowMs).1.status = some 429 ∧
      (rateLimitOrNextMem st key now limit windowMs).1.remainingHeader = some 0 ∧
      (rateLimitOrNextMem st key now limit windowMs).1.resetHeader.isSome) ∧
    (∀ r, memGet st key = some r → now < r.resetAt →
      (rateLimitOrNextMem st key now limit windowMs).1.remainingHeader.isSome ∧
      (rateLimitOrNextMem st key now limit windowMs).1.resetHeader.isSome) ∧
    ((rateLimitOrNextMem st key now limit windowMs).1.nextCalled = true →
      (rateLimitOrNextMem st key now limit windowMs).1.status = none) ∧
    (memGet st key = none →
      (rateLimitOrNextMem st key now limit windowMs).1 = ⟨true, none, none, none⟩) ∧
    (∀ r, memGet st key = some r → r.resetAt ≤ now →
      (rateLimitOrNextMem st key now limit windowMs).1 = ⟨true, none, none, none⟩) := by
  cases hm : memGet st key with
  | none =>
    have hstep : rateLimitOrNextMem st key now limit windowMs =
        (⟨true, none, none, none⟩, memSet st key ⟨now + windowMs, 1⟩) := by
      simp only [rateLimitOrNextMem, hm]
    rw [hstep]
    refine ⟨?_, ?_, ?_, ?_, ?_⟩
    · intro h
      exact Bool.noConfusion h
    · intro r hr
      exact Option.noConfusion hr
    · intro _
      rfl
    · intro _
      rfl
    · intro r hr
      exact Option.noConfusion hr
  | some r =>
    by_cases hreset : r.resetAt ≤ now
    · have hstep : rateLimitOrNextMem st key now limit windowMs =
          (⟨true, none, none, none⟩, memSet st key ⟨now + windowMs, 1⟩) := by
        simp only [rateLimitOrNextMem, hm]
        rw [if_pos hreset]
      rw [hstep]
      refine ⟨?_, ?_, ?_, ?_, ?_⟩
      · intro h
        exact Bool.noConfusion h
      · intro r' hr' hnow
        have hrr := Option.some.inj hr'
        rw [← hrr] at hnow
        omega
      · intro _
        rfl
      · intro h
        exact Option.noConfusion h
      · intro _ _ _
        rfl
    · by_cases hcount : limit ≤ r.count
      · have hstep : rateLimitOrNextMem st key now limit windowMs =
            (⟨false, some 429, some 0, some (r.resetAt / 1000)⟩, st) := by
          simp only [rateLimitOrNextMem, hm]
          rw [if_neg hreset, if_pos hcount]
        rw [hstep]
        refine ⟨?_, ?_, ?_, ?_, ?_⟩
        · intro _
          exact ⟨rfl, rfl, rfl⟩
        · intro _ _ _
          exact ⟨rfl, rfl⟩
        · intro h
          exact Bool.noConfusion h
        · intro h
          exact Option.noConfusion h
        · intro r' hr' hra
          have hrr := Option.some.inj hr'
          rw [← hrr] at hra
          omega
      · have hstep : rateLimitOrNextMem st key now limit windowMs =
            (⟨true, none, some (limit - (r.count + 1)), some (r.resetAt / 1000)⟩,
              memSet st key ⟨r.resetAt, r.count + 1⟩) := by
          simp only [rateLimitOrNextMem, hm]
          rw [if_neg hreset, if_neg hcount]
        rw [hstep]
        refine ⟨?_, ?_, ?_, ?_, ?_⟩
        · intro h
          exact Bool.noConfusion h
        · intro _ _ _
          exact ⟨rfl, rfl⟩
        · intro _
          rfl
        · intro h
          exact Option.noConfusion h
        · intro r' hr' hra
          have hrr := Option.some.inj hr'
          rw [← hrr] at hra
          omega

/-- Witness for C6 (amended) at a full in-window record: denial with
both headers, and at an elapsed record: allowed with no headers. -/
theorem c6_rate_limit_headers_witness :
    (rateLimitOrNextMem [("k", ⟨5000, 30⟩)] "k" 0 30 60000).1.status = some 429 ∧
    (rateLimitOrNextMem [("k", ⟨5000, 30⟩)] "k" 0 30 60000).1.remainingHeader = some 0 ∧
    (rateLimitOrNextMem [("k", ⟨5000, 30⟩)] "k" 9000 30 60000).1 = ⟨true, none, none, none⟩ := by
  have h := c6_rate_limit_headers [("k", ⟨5000, 30⟩)] "k" 0 30 60000
  have h9 := c6_rate_limit_headers [("k", ⟨5000, 30⟩)] "k" 9000 30 60000
  have hden := h.1 (by decide)
  exact ⟨hden.1, hden.2.1, h9.2.2.2.2 ⟨5000, 30⟩ rfl (by decide)⟩

/-! ## Lemmas: durable session store -/

theorem find?_isSome_filter {α : Type} (p keep : α → Bool) (l : List α)
    (h : ∀ e, p e = true → keep e = true) :
    (List.find? p (l.filter keep)).isSome = (List.find? p l).isSome := by
  induction l with
  | nil => rfl
  | cons a l ih =>
    by_cases hp : p a = true
    · have hk := h a hp
      rw [List.filter_cons, if_pos hk, List.find?_cons_of_pos _ hp,
        List.find?_cons_of_pos _ hp]
    · have hp' : p a = false := by
        cases hpa : p a
        · rfl
        · exact absurd hpa hp
      by_cases hk : keep a = true
      · rw [List.filter_cons, if_pos hk, List.find?_cons_of_neg _ hp,
          List.find?_cons_of_neg _ hp]
        exact ih
      · have hk' : keep a = false := by
          cases hka : keep a
          · rfl
          · exact absurd hka hk
        rw [List.filter_cons, if_neg (by rw [hk']; exact Bool.false_ne_true),
          List.find?_cons_of_neg _ hp]
        exact ih

theorem redisHasSession_deleteSession (st : RedisState) (now : Nat) {t0 tok : String}
    (hne : tok ≠ t0) :
    redisHasSession (deleteSession st t0) now tok = redisHasSession st now tok := by
  unfold redisHasSession deleteSession
  apply find?_isSome_filter
  intro e hp
  have h1 : e.1 = tok := by
    have hbeq := ((Bool.and_eq_true _ _).mp hp).1
    exact eq_of_beq hbeq
  simp [h1, hne]

theorem countActive_after_delete (st : RedisState) (now : Nat) {t0 : String}
    (hnd : st.members.Nodup) (hmem : t0 ∈ st.members)
    (hact : redisHasSession st now t0 = true) :
    (countActiveSessions (deleteSession st t0) now).2 + 1 = (countActiveSessions st now).2 := by
  show (((deleteSession st t0).members).filter
      (redisHasSession (deleteSession st t0) now)).length + 1 =
    ((st.members).filter (redisHasSession st now)).length
  have hq : ∀ x ∈ (deleteSession st t0).members,
      redisHasSession (deleteSession st t0) now x = redisHasSession st now x := by
    intro x hx
    have hxne : x ≠ t0 := ((List.Nodup.mem_erase_iff hnd).mp hx).1
    exact redisHasSession_deleteSession st now hxne
  rw [List.filter_congr hq]
  have hperm : st.members.Perm (t0 :: st.members.erase t0) := List.perm_cons_erase hmem
  have hlen : (st.members.filter (redisHasSession st now)).length =
      ((t0 :: st.members.erase t0).filter (redisHasSession st now)).length :=
    (hperm.filter _).length_eq
  rw [hlen, List.filter_cons]
  simp only [hact, if_true]
  rfl

/-- Common evaluation of the login handler once the request shape, the
server secret, the allow-listed username, and the password check have
all passed, in the durable (Redis) configuration. -/
theorem loginHandler_durable_eval (cfg : LoginCfg) (bc : String → String → Bool)
    (encFn : String → String) (mkTok : String → String → String) (st : RedisState) (now : Nat)
    (username password openaiApiKey newToken : String)
    (happ : cfg.appSecret ≠ "")
    (hsk : strStartsWith "sk-" (trimString openaiApiKey) = true)
    (huser : normalizeUsername username = "mara" ∨ normalizeUsername username = "baru")
    (hpw : verifyPassword bc password
      (if normalizeUsername username = "mara" then cfg.maraPassword else cfg.baruPassword) = true) :
    loginHandler cfg bc encFn mkTok true st now username password openaiApiKey newToken =
      if MAX_ACTIVE_SESSIONS ≤ (countActiveSessions st now).2 then
        (⟨429, some "Maximum 2 active users already logged in", none, none⟩,
          (countActiveSessions st now).1)
      else
        (⟨200, none, some newToken, some (normalizeUsername username)⟩,
          setSession (countActiveSessions st now).1 now newToken (normalizeUsername username)
            (encFn (trimString openaiApiKey)) SESSION_TTL_SECONDS) := by
  simp only [loginHandler]
  rw [if_neg happ, if_neg (not_not_intro hsk),
    if_neg (show ¬(normalizeUsername username ≠ "mara" ∧ normalizeUsername username ≠ "baru") by
      rcases huser with hu | hu
      · exact fun hcon => hcon.1 hu
      · exact fun hcon => hcon.2 hu),
    if_neg (not_not_intro hpw)]
  exact if_pos (by trivial)

/-- **C7.** With the durable (Redis) store active and valid
credentials: when `countActiveSessions() >= MAX_ACTIVE_SESSIONS` at
check time the login is rejected 429 ("Maximum 2 active users already
logged in") and no session record is written (the key-value store is
unchanged; the check happens before token creation); below the cap the
login succeeds and writes the session; and after one logout of an
active session brings the count from the cap down by one, a new login
succeeds again. -/
theorem c7_active_session_cap (cfg : LoginCfg) (bc : String → String → Bool)
    (encFn : String → String) (mkTok : String → String → String) (st : RedisState) (now : Nat)
    (username password openaiApiKey newToken : String)
    (happ : cfg.appSecret ≠ "")
    (hsk : strStartsWith "sk-" (trimString openaiApiKey) = true)
    (huser : normalizeUsername username = "mara" ∨ normalizeUsername username = "baru")
    (hpw : verifyPassword bc password
      (if normalizeUsername username = "mara" then cfg.maraPassword else cfg.baruPassword) = true) :
    (MAX_ACTIVE_SESSIONS ≤ (countActiveSessions st now).2 →
      loginHandler cfg bc encFn mkTok true st now username password openaiApiKey newToken =
        (⟨429, some "Maximum 2 active users already logged in", none, none⟩,
          (countActiveSessions st now).1) ∧
      ((countActiveSessions st now).1).kv = st.kv) ∧
    ((countActiveSessions st now).2 < MAX_ACTIVE_SESSIONS →
      loginHandler cfg bc encFn mkTok true st now username password openaiApiKey newToken =
        (⟨200, none, some newToken, some (normalizeUsername username)⟩,
          setSession (countActiveSessions st now).1 now newToken (normalizeUsername username)
            (encFn (trimString openaiApiKey)) SESSION_TTL_SECONDS)) ∧
    (∀ t0, st.members.Nodup → t0 ∈ st.members → redisHasSession st now t0 = true →
      (countActiveSessions st now).2 = MAX_ACTIVE_SESSIONS →
      (loginHandler cfg bc encFn mkTok true (logoutHandler st t0).2 now username password
        openaiApiKey newToken).1.status = 200) := by
  have heval := loginHandler_durable_eval cfg bc encFn mkTok st now username password
    openaiApiKey newToken happ hsk huser hpw
  refine ⟨?_, ?_, ?_⟩
  · intro hcap
    rw [heval, if_pos hcap]
    exact ⟨rfl, rfl⟩
  · intro hbelow
    rw [heval, if_neg (by omega)]
  · intro t0 hnd hmem hact hcap
    have hdec := countActive_after_delete st now hnd hmem hact
    have heval2 := loginHandler_durable_eval cfg bc encFn mkTok (deleteSession st t0) now
      username password openaiApiKey newToken happ hsk huser hpw
    show (loginHandler cfg bc encFn mkTok true (deleteSession st t0) now username password
      openaiApiKey newToken).1.status = 200
    rw [heval2, if_neg (by rw [hcap] at hdec; omega)]

/-- Witness for C7: a state with the two active sessions `t1`/`t2` at
the cap rejects a valid login with 429; after logging out `t1`, the
same login succeeds with 200. -/
theorem c7_active_session_cap_witness :
    (loginHandler ⟨"s", "pw", "pw2"⟩ (fun _ _ => false) (fun s => s) (fun _ _ => "T") true
        ⟨[("t1", ("mara", "e"), 100), ("t2", ("baru", "e"), 100)], ["t1", "t2"]⟩ 0
        "mara" "pw" "sk-abc" "T3").1.status = 429 ∧
    (loginHandler ⟨"s", "pw", "pw2"⟩ (fun _ _ => false) (fun s => s) (fun _ _ => "T") true
        (logoutHandler ⟨[("t1", ("mara", "e"), 100), ("t2", ("baru", "e"), 100)],
          ["t1", "t2"]⟩ "t1").2 0
        "mara" "pw" "sk-abc" "T3").1.status = 200 := by
  have h := c7_active_session_cap ⟨"s", "pw", "pw2"⟩ (fun _ _ => false) (fun s => s)
    (fun _ _ => "T") ⟨[("t1", ("mara", "e"), 100), ("t2", ("baru", "e"), 100)], ["t1", "t2"]⟩ 0
    "mara" "pw" "sk-abc" "T3" (by decide) (by decide) (Or.inl (by decide)) (by decide)
  refine ⟨?_, h.2.2 "t1" (by decide) (by decide) (by decide) (by decide)⟩
  rw [(h.1 (by decide)).1]

/-- **C8.** For a well-formed login request (string fields, `sk-`
credential prefix, server secret configured), an unknown normalized
username and an allow-listed username with a failing password produce
the identical response: status 401 with body error `Invalid
credentials` — the handler never reveals whether the username was
valid. -/
theorem c8_login_uniform_error (cfg : LoginCfg) (bc : String → String → Bool)
    (encFn : String → String) (mkTok : String → String → String) (redisPresent : Bool)
    (st : RedisState) (now : Nat) (u1 p1 key1 tok1 u2 p2 key2 tok2 : String)
    (happ : cfg.appSecret ≠ "")
    (hsk1 : strStartsWith "sk-" (trimString key1) = true)
    (hsk2 : strStartsWith "sk-" (trimString key2) = true)
    (hunknown : normalizeUsername u1 ≠ "mara" ∧ normalizeUsername u1 ≠ "baru")
    (hknown : normalizeUsername u2 = "mara" ∨ normalizeUsername u2 = "baru")
    (hbad : verifyPassword bc p2
      (if normalizeUsername u2 = "mara" then cfg.maraPassword else cfg.baruPassword) = false) :
    (loginHandler cfg bc encFn mkTok redisPresent st now u1 p1 key1 tok1).1 =
      ⟨401, some "Invalid credentials", none, none⟩ ∧
    (loginHandler cfg bc encFn mkTok redisPresent st now u2 p2 key2 tok2).1 =
      ⟨401, some "Invalid credentials", none, none⟩ ∧
    (loginHandler cfg bc encFn mkTok redisPresent st now u1 p1 key1 tok1).1 =
      (loginHandler cfg bc encFn mkTok redisPresent st now u2 p2 key2 tok2).1 := by
  have h1 : (loginHandler cfg bc encFn mkTok redisPresent st now u1 p1 key1 tok1).1 =
      ⟨401, some "Invalid credentials", none, none⟩ := by
    simp only [loginHandler]
    rw [if_neg happ, if_neg (not_not_intro hsk1), if_pos hunknown]
  have h2 : (loginHandler cfg bc encFn mkTok redisPresent st now u2 p2 key2 tok2).1 =
      ⟨401, some "Invalid credentials", none, none⟩ := by
    simp only [loginHandler]
    rw [if_neg happ, if_neg (not_not_intro hsk2),
      if_neg (show ¬(normalizeUsername u2 ≠ "mara" ∧ normalizeUsername u2 ≠ "baru") by
        rcases hknown with hu | hu
        · exact fun hcon => hcon.1 hu
        · exact fun hcon => hcon.2 hu),
      if_pos (show ¬(verifyPassword bc p2
          (if normalizeUsername u2 = "mara" then cfg.maraPassword else cfg.baruPassword) = true) by
        rw [hbad]
        exact Bool.false_ne_true)]
  exact ⟨h1, h2, by rw [h1, h2]⟩

/-- Witness for C8: the unknown user `eve` and the allow-listed
`"MARA "` (normalizing to `mara`) with a wrong password receive the
same 401 `Invalid credentials` response. -/
theorem c8_login_uniform_error_witness :
    (loginHandler ⟨"s", "pw", "pw2"⟩ (fun _ _ => false) (fun s => s) (fun _ _ => "T") false
        ⟨[], []⟩ 0 "eve" "x" "sk-abc" "T1").1 =
      ⟨401, some "Invalid credentials", none, none⟩ ∧
    (loginHandler ⟨"s", "pw", "pw2"⟩ (fun _ _ => false) (fun s => s) (fun _ _ => "T") false
        ⟨[], []⟩ 0 "MARA " "wrong" "sk-abc" "T2").1 =
      ⟨401, some "Invalid credentials", none, none⟩ := by
  have h := c8_login_uniform_error ⟨"s", "pw", "pw2"⟩ (fun _ _ => false) (fun s => s)
    (fun _ _ => "T") false ⟨[], []⟩ 0 "eve" "x" "sk-abc" "T1" "MARA " "wrong" "sk-abc" "T2"
    (by decide) (by decide) (by decide) (by decide) (Or.inl (by decide)) (by decide)
  exact ⟨h.1, h.2.1⟩

/-! ## Lemmas: credential vault -/

theorem b64Encode_ne_46 {c : Nat} {l : List Nat} (hl : ∀ b ∈ l, b < 256)
    (h : c ∈ b64Encode l) : c ≠ 46 := by
  rcases b64Encode_mem hl h with rfl | ⟨i, hi, rfl⟩
  · decide
  · clear h
    revert i
    decide

theorem b64Encode_ne_nil {l : List Nat} (h : l ≠ []) : b64Encode l ≠ [] := by
  induction l using b64Encode.induct with
  | case1 => exact absurd rfl h
  | case2 a => simp [b64Encode]
  | case3 a b => simp [b64Encode]
  | case4 a b c rest ih => simp [b64Encode]

theorem blob_assoc (a b c : List Nat) :
    (a ++ 46 :: b ++ 46 :: c) = a ++ (46 :: (b ++ (46 :: c))) := by
  simp

theorem split3_parts {a b c : List Nat}
    (ha : ∀ x ∈ a, x ≠ 46) (hb : ∀ x ∈ b, x ≠ 46) (hc : ∀ x ∈ c, x ≠ 46)
    (hna : a ≠ []) (hnb : b ≠ []) (hnc : c ≠ []) :
    split3 (a ++ 46 :: b ++ 46 :: c) = some (a, b, c) := by
  rw [blob_assoc]
  unfold split3
  rw [splitOnDot_append ha, splitOnDot_append hb, splitOnDot_no_dot hc]
  simp [hna, hnb, hnc]

theorem split3_empty_mid {a c : List Nat} (ha : ∀ x ∈ a, x ≠ 46) :
    split3 (a ++ 46 :: 46 :: c) = none := by
  unfold split3
  rw [splitOnDot_append ha]
  obtain ⟨h, t, hht⟩ := List.exists_cons_of_ne_nil (splitOnDot_ne_nil c)
  rw [show splitOnDot (46 :: c) = [] :: splitOnDot c from by simp [splitOnDot], hht]
  simp

theorem split3_empty_tail {a b : List Nat}
    (ha : ∀ x ∈ a, x ≠ 46) (hb : ∀ x ∈ b, x ≠ 46) :
    split3 (a ++ 46 :: b ++ 46 :: []) = none := by
  rw [blob_assoc]
  unfold split3
  rw [splitOnDot_append ha, splitOnDot_append hb]
  simp [splitOnDot]

theorem decryptApiKey_eval (g : GcmPrims) (hash : List Nat → List Nat)
    {secret a b c : List Nat}
    (hs : secret ≠ []) (hna : a ≠ []) (hnb : b ≠ []) (hnc : c ≠ [])
    (ha : ∀ x ∈ a, x ≠ 46) (hb : ∀ x ∈ b, x ≠ 46) (hc : ∀ x ∈ c, x ≠ 46) :
    decryptApiKey g hash secret (a ++ 46 :: b ++ 46 :: c) =
      if b64Decode c = g.tagOf (hash secret) (b64Decode a) (b64Decode b)
      then some (g.ctrDec (hash secret) (b64Decode a) (b64Decode b)) else none := by
  unfold decryptApiKey
  rw [if_neg hs, split3_parts ha hb hc hna hnb hnc]

/-- **C2 counterexample.** A single-byte mutation of the blob that
still decrypts: change the final base64 padding byte `=` of the tag
component into `.`. The forgiving decoder ignores padding, so the
decoded tag (and hence the whole decryption) is unchanged, refuting
"decrypt fails for any single-byte mutation of the blob". -/
theorem c2_single_byte_mutation_counterexample :
    encryptApiKey toyG toyHash sConc ivConc xConc = some blobConc ∧
    blobConc.set (blobConc.length - 1) 46 ≠ blobConc ∧
    decryptApiKey toyG toyHash sConc (blobConc.set (blobConc.length - 1) 46) = some xConc := by
  exact ⟨rfl, by decide, by decide⟩

/-- **C2 (amended).** For non-empty plaintext and secret:
`decrypt(encrypt(x, s), s) = x`; decryption fails for every different
secret, for every change to the decoded ciphertext bytes, and for
every change to the decoded tag bytes. (Byte-level mutations of the
base64 text that decode to the same component bytes — padding bytes
and unused trailing bits — decrypt successfully, per the
counterexample.) The AES-GCM core enters through `key`, `ct`, `tag`
and the collision hypotheses, which are the standard idealisation of
the GHASH tag and the SHA-256 key derivation. -/
theorem c2_vault_roundtrip_auth (g : GcmPrims) (hash : List Nat → List Nat)
    (secret iv x key ct tag : List Nat)
    (hkey : key = hash secret)
    (hct : ct = g.ctrEnc key iv x)
    (htag : tag = g.tagOf key iv ct)
    (hs : secret ≠ []) (hx : x ≠ []) (hiv : iv ≠ [])
    (hivB : ∀ b ∈ iv, b < 256)
    (hctne : ct ≠ []) (hctB : ∀ b ∈ ct, b < 256)
    (htagne : tag ≠ []) (htagB : ∀ b ∈ tag, b < 256)
    (hctr : g.ctrDec key iv ct = x)
    (hkeycoll : ∀ s', s' ≠ secret → g.tagOf (hash s') iv ct ≠ tag)
    (hctcoll : ∀ ct', ct' ≠ ct → g.tagOf key iv ct' ≠ tag) :
    encryptApiKey g hash secret iv x =
      some (b64Encode iv ++ 46 :: b64Encode ct ++ 46 :: b64Encode tag) ∧
    decryptApiKey g hash secret (b64Encode iv ++ 46 :: b64Encode ct ++ 46 :: b64Encode tag) =
      some x ∧
    (∀ s', s' ≠ secret →
      decryptApiKey g hash s' (b64Encode iv ++ 46 :: b64Encode ct ++ 46 :: b64Encode tag) =
        none) ∧
    (∀ ct', ct' ≠ ct → (∀ b ∈ ct', b < 256) →
      decryptApiKey g hash secret
        (b64Encode iv ++ 46 :: b64Encode ct' ++ 46 :: b64Encode tag) = none) ∧
    (∀ tag', tag' ≠ tag → (∀ b ∈ tag', b < 256) →
      decryptApiKey g hash secret
        (b64Encode iv ++ 46 :: b64Encode ct ++ 46 :: b64Encode tag') = none) := by
  subst hkey
  subst hct
  subst htag
  have hdotIv : ∀ y ∈ b64Encode iv, y ≠ 46 := fun y hy => b64Encode_ne_46 hivB hy
  have hdotCt : ∀ y ∈ b64Encode (g.ctrEnc (hash secret) iv x), y ≠ 46 :=
    fun y hy => b64Encode_ne_46 hctB hy
  have hdotTag : ∀ y ∈ b64Encode (g.tagOf (hash secret) iv (g.ctrEnc (hash secret) iv x)),
      y ≠ 46 := fun y hy => b64Encode_ne_46 htagB hy
  have hnIv := b64Encode_ne_nil hiv
  have hnCt := b64Encode_ne_nil hctne
  have hnTag := b64Encode_ne_nil htagne
  have hdecIv := b64Decode_b64Encode hivB
  have hdecCt := b64Decode_b64Encode hctB
  have hdecTag := b64Decode_b64Encode htagB
  refine ⟨?_, ?_, ?_, ?_, ?_⟩
  · unfold encryptApiKey
    rw [if_neg hs]
  · rw [decryptApiKey_eval g hash hs hnIv hnCt hnTag hdotIv hdotCt hdotTag,
      hdecIv, hdecCt, hdecTag]
    simp [hctr]
  · intro s' hs'
    by_cases hse : s' = []
    · subst hse
      unfold decryptApiKey
      rw [if_pos rfl]
    · rw [decryptApiKey_eval g hash hse hnIv hnCt hnTag hdotIv hdotCt hdotTag,
        hdecIv, hdecCt, hdecTag, if_neg ?_]
      exact fun heq => hkeycoll s' hs' heq.symm
  · intro ct' hct' hctB'
    by_cases hce : ct' = []
    · subst hce
      unfold decryptApiKey
      rw [if_neg hs]
      rw [show (b64Encode iv ++ 46 :: b64Encode ([] : List Nat) ++
          46 :: b64Encode (g.tagOf (hash secret) iv (g.ctrEnc (hash secret) iv x))) =
        (b64Encode iv ++ 46 :: 46 ::
          b64Encode (g.tagOf (hash secret) iv (g.ctrEnc (hash secret) iv x))) from by
        simp [b64Encode]]
      rw [split3_empty_mid hdotIv]
    · have hdotCt' : ∀ y ∈ b64Encode ct', y ≠ 46 := fun y hy => b64Encode_ne_46 hctB' hy
      have hnCt' := b64Encode_ne_nil hce
      rw [decryptApiKey_eval g hash hs hnIv hnCt' hnTag hdotIv hdotCt' hdotTag,
        hdecIv, hdecTag, b64Decode_b64Encode hctB', if_neg ?_]
      exact fun heq => hctcoll ct' hct' heq.symm
  · intro tag' htag' htagB'
    by_cases hte : tag' = []
    · subst hte
      unfold decryptApiKey
      rw [if_neg hs]
      rw [show (b64Encode ([] : List Nat)) = ([] : List Nat) from rfl]
      rw [split3_empty_tail hdotIv hdotCt]
    · have hdotTag' : ∀ y ∈ b64Encode tag', y ≠ 46 := fun y hy => b64Encode_ne_46 htagB' hy
      have hnTag' := b64Encode_ne_nil hte
      rw [decryptApiKey_eval g hash hs hnIv hnCt hnTag' hdotIv hdotCt hdotTag',
        hdecIv, hdecCt, b64Decode_b64Encode htagB', if_neg htag']

/-- Witness for C2 (amended) at the concrete toy instantiation:
round-trip succeeds, a different secret fails, a modified ciphertext
byte fails, and a modified tag byte fails. -/
theorem c2_vault_roundtrip_auth_witness :
    decryptApiKey toyG toyHash sConc
      (b64Encode ivConc ++ 46 :: b64Encode xConc ++ 46 :: b64Encode tagA) = some xConc ∧
    decryptApiKey toyG toyHash [107, 107]
      (b64Encode ivConc ++ 46 :: b64Encode xConc ++ 46 :: b64Encode tagA) = none ∧
    decryptApiKey toyG toyHash sConc
      (b64Encode ivConc ++ 46 :: b64Encode [97, 98, 100] ++ 46 :: b64Encode tagA) = none ∧
    decryptApiKey toyG toyHash sConc
      (b64Encode ivConc ++ 46 :: b64Encode xConc ++ 46 :: b64Encode tagB) = none := by
  have h := c2_vault_roundtrip_auth toyG toyHash sConc ivConc xConc keyConc xConc tagA
    (by decide) (by decide) (by decide)
    (by decide) (by decide) (by decide) (by decide)
    (by decide) (by decide) (by decide) (by decide)
    (by decide)
    (fun s' hs' => by
      simp only [toyHash, toyG]
      rw [if_neg hs']
      decide)
    (fun ct' hct' => by
      simp only [toyG]
      rw [if_neg (fun hcon => hct' hcon.2)]
      decide)
  exact ⟨h.2.1, h.2.2.1 [107, 107] (by decide), h.2.2.2.1 [97, 98, 100] (by decide) (by decide),
    h.2.2.2.2 tagB (by decide) (by decide)⟩

/-- **C9 counterexample.** A blob with four dot-separated components
(wrong component count, hence malformed per the claim) whose first
three components are a valid encryption: the JS destructuring ignores
everything after the third component, so decryption succeeds instead
of failing with a `CryptoError`. -/
theorem c9_extra_component_counterexample :
    (splitOnDot (blobConc ++ [46, 65])).length ≠ 3 ∧
    decryptApiKey toyG toyHash sConc (blobConc ++ [46, 65]) = some xConc := by
  exact ⟨by decide, by decide⟩

/-- **C9 (amended).** `decryptApiKey` fails whenever any of the first
three dot-separated components is missing or empty, and whenever the
decoded tag mismatches the recomputed tag; on success the result is
always the complete `ctrDec` of the whole decoded ciphertext under a
verified tag — never partial data. Components after the third are
ignored by the destructuring (see the counterexample). -/
theorem c9_decrypt_malformed_or_mismatch (g : GcmPrims) (hash : List Nat → List Nat)
    (secret : List Nat) :
    (∀ blob, split3 blob = none → decryptApiKey g hash secret blob = none) ∧
    (∀ blob a b c, split3 blob = some (a, b, c) →
      b64Decode c ≠ g.tagOf (hash secret) (b64Decode a) (b64Decode b) →
      decryptApiKey g hash secret blob = none) ∧
    (∀ blob p, decryptApiKey g hash secret blob = some p →
      secret ≠ [] ∧ ∃ a b c, split3 blob = some (a, b, c) ∧
        b64Decode c = g.tagOf (hash secret) (b64Decode a) (b64Decode b) ∧
        p = g.ctrDec (hash secret) (b64Decode a) (b64Decode b)) := by
  refine ⟨?_, ?_, ?_⟩
  · intro blob hsplit
    unfold decryptApiKey
    by_cases hse : secret = []
    · rw [if_pos hse]
    · rw [if_neg hse, hsplit]
  · intro blob a b c hsplit hmis
    unfold decryptApiKey
    by_cases hse : secret = []
    · rw [if_pos hse]
    · rw [if_neg hse, hsplit]
      exact if_neg hmis
  · intro blob p hdec
    unfold decryptApiKey at hdec
    by_cases hse : secret = []
    · rw [if_pos hse] at hdec
      exact absurd hdec (by simp)
    · rw [if_neg hse] at hdec
      refine ⟨hse, ?_⟩
      cases hsplit : split3 blob with
      | none =>
        rw [hsplit] at hdec
        exact absurd hdec (by simp)
      | some parts =>
        obtain ⟨a, b, c⟩ := parts
        rw [hsplit] at hdec
        have hdec' : (if b64Decode c = g.tagOf (hash secret) (b64Decode a) (b64Decode b)
            then some (g.ctrDec (hash secret) (b64Decode a) (b64Decode b)) else none) =
            some p := hdec
        by_cases htg : b64Decode c = g.tagOf (hash secret) (b64Decode a) (b64Decode b)
        · rw [if_pos htg] at hdec'
          exact ⟨a, b, c, rfl, htg, (Option.some.inj hdec').symm⟩
        · rw [if_neg htg] at hdec'
          exact absurd hdec' (by simp)

/-- Witness for C9 (amended): a two-component blob fails, a
tag-mismatching blob fails, and the success case recovers the full
plaintext at the concrete instantiation. -/
theorem c9_decrypt_malformed_or_mismatch_witness :
    decryptApiKey toyG toyHash sConc [97, 46, 98] = none ∧
    decryptApiKey toyG toyHash sConc
      (b64Encode ivConc ++ 46 :: b64Encode xConc ++ 46 :: b64Encode tagB) = none ∧
    (sConc ≠ [] ∧ ∃ a b c, split3 blobConc = some (a, b, c) ∧
      b64Decode c = toyG.tagOf (toyHash sConc) (b64Decode a) (b64Decode b) ∧
      xConc = toyG.ctrDec (toyHash sConc) (b64Decode a) (b64Decode b)) := by
  have h := c9_decrypt_malformed_or_mismatch toyG toyHash sConc
  refine ⟨h.1 [97, 46, 98] (by decide), ?_, h.2.2 blobConc xConc (by decide)⟩
  exact h.2.1 (b64Encode ivConc ++ 46 :: b64Encode xConc ++ 46 :: b64Encode tagB)
    (b64Encode ivConc) (b64Encode xConc) (b64Encode tagB) (by decide) (by decide)

/-! ## Lemmas: session payload serialization -/

theorem dropBytes_prefix (p r : List Nat) : dropBytes p (p ++ r) = some r := by
  induction p with
  | nil => rfl
  | cons e ps ih => simp [dropBytes, ih]

theorem natDecimalAux_bounds :
    ∀ fuel n, n < fuel → ∀ c ∈ natDecimalAux fuel n, 48 ≤ c ∧ c ≤ 57 := by
  intro fuel
  induction fuel with
  | zero => intro n hn; exact absurd hn (Nat.not_lt_zero n)
  | succ fuel ih =>
    intro n hn c hc
    rw [natDecimalAux] at hc
    by_cases h10 : n < 10
    · rw [if_pos h10] at hc
      simp at hc
      omega
    · rw [if_neg h10] at hc
      rcases List.mem_append.mp hc with hc' | hc'
      · exact ih (n / 10) (by omega) c hc'
      · simp at hc'
        omega

theorem natDecimal_bounds (n : Nat) : ∀ c ∈ natDecimal n, 48 ≤ c ∧ c ≤ 57 :=
  natDecimalAux_bounds (n + 1) n (Nat.lt_succ_self n)

theorem natDecimal_ne_nil (n : Nat) : natDecimal n ≠ [] := by
  unfold natDecimal natDecimalAux
  by_cases hn : n < 10
  · rw [if_pos hn]
    simp
  · rw [if_neg hn]
    simp

theorem digitsVal_natDecimalAux :
    ∀ fuel n, n < fuel → digitsVal (natDecimalAux fuel n) = n := by
  intro fuel
  induction fuel with
  | zero => intro n hn; exact absurd hn (Nat.not_lt_zero n)
  | succ fuel ih =>
    intro n hn
    rw [natDecimalAux]
    by_cases h10 : n < 10
    · rw [if_pos h10]
      simp [digitsVal, List.foldl]
    · rw [if_neg h10]
      unfold digitsVal
      rw [List.foldl_append]
      have := ih (n / 10) (by omega)
      unfold digitsVal at this
      rw [this]
      simp [List.foldl]
      omega

theorem digitsVal_natDecimal (n : Nat) : digitsVal (natDecimal n) = n :=
  digitsVal_natDecimalAux (n + 1) n (Nat.lt_succ_self n)

theorem payload_bounds {u k : List Nat} (hu : ∀ c ∈ u, c < 256) (hk : ∀ c ∈ k, c < 256)
    (exp : Nat) : ∀ c ∈ encodeSessionPayload u k exp, c < 256 := by
  unfold encodeSessionPayload
  refine List.forall_mem_append.mpr ⟨List.forall_mem_append.mpr ⟨List.forall_mem_append.mpr
    ⟨List.forall_mem_append.mpr ⟨List.forall_mem_append.mpr ⟨List.forall_mem_append.mpr
    ⟨by decide, hu⟩, by decide⟩, hk⟩, by decide⟩, ?_⟩, by decide⟩
  intro c hc
  have := natDecimal_bounds exp c hc
  omega

theorem payload_ne_nil (u k : List Nat) (exp : Nat) :
    encodeSessionPayload u k exp ≠ [] := by
  simp [encodeSessionPayload]

/-- The canonical-form parser inverts the canonical serializer, for
field values free of the JSON quote byte. -/
theorem parse_encode_payload (u k : List Nat) (exp : Nat) (hu : 34 ∉ u) (hk : 34 ∉ k) :
    parseSessionPayload (encodeSessionPayload u k exp) = some (u, k, exp) := by
  have hform : encodeSessionPayload u k exp =
      [123, 34, 117, 34, 58, 34] ++
        (u ++ (34 :: (44 :: 34 :: 107 :: 34 :: 58 :: 34 ::
          (k ++ (34 :: (44 :: 34 :: 101 :: 120 :: 112 :: 34 :: 58 ::
            (natDecimal exp ++ [125]))))))) := by
    unfold encodeSessionPayload
    simp
  rw [hform]
  simp only [parseSessionPayload, dropBytes_prefix]
  have huq : ∀ c ∈ u, (decide (c ≠ 34)) = true := by
    intro c hc
    simp only [decide_eq_true_eq]
    intro h34
    exact hu (h34 ▸ hc)
  have hkq : ∀ c ∈ k, (decide (c ≠ 34)) = true := by
    intro c hc
    simp only [decide_eq_true_eq]
    intro h34
    exact hk (h34 ▸ hc)
  rw [takeWhile_append_stop huq (by decide), dropWhile_append_stop huq (by decide)]
  simp only [show dropBytes [34, 44, 34, 107, 34, 58, 34]
      (34 :: (44 :: 34 :: 107 :: 34 :: 58 :: 34 ::
        (k ++ (34 :: (44 :: 34 :: 101 :: 120 :: 112 :: 34 :: 58 ::
          (natDecimal exp ++ [125])))))) =
    some (k ++ (34 :: (44 :: 34 :: 101 :: 120 :: 112 :: 34 :: 58 ::
      (natDecimal exp ++ [125])))) from by simp [dropBytes]]
  rw [takeWhile_append_stop hkq (by decide), dropWhile_append_stop hkq (by decide)]
  simp only [show dropBytes [34, 44, 34, 101, 120, 112, 34, 58]
      (34 :: (44 :: 34 :: 101 :: 120 :: 112 :: 34 :: 58 :: (natDecimal exp ++ [125]))) =
    some (natDecimal exp ++ [125]) from by simp [dropBytes]]
  have hdq : ∀ c ∈ natDecimal exp, isDigitByte c = true := by
    intro c hc
    have := natDecimal_bounds exp c hc
    simp [isDigitByte]
    omega
  rw [takeWhile_append_stop hdq (by decide), dropWhile_append_stop hdq (by decide)]
  rw [if_neg (natDecimal_ne_nil exp), if_pos rfl, digitsVal_natDecimal]

/-! ## Lemmas: base64url and token splitting -/

theorem b64CharOf_ne_61 (i : Nat) : b64CharOf i ≠ 61 := by
  unfold b64CharOf
  split_ifs <;> omega

theorem b64url_filter_ne_none {c : Nat} (hc : c ≠ 61) :
    (if c = 61 then none else if c = 43 then some (45 : Nat) else if c = 47 then some 95
      else some c) ≠ none := by
  rw [if_neg hc]
  split_ifs <;> simp

theorem b64urlEncode_ne_nil {l : List Nat} (h : l ≠ []) : b64urlEncode l ≠ [] := by
  induction l using b64Encode.induct with
  | case1 => exact absurd rfl h
  | case2 a =>
    simp only [b64urlEncode, b64Encode, List.filterMap_cons]
    obtain ⟨v, hv⟩ := Option.ne_none_iff_exists'.mp (b64url_filter_ne_none (b64CharOf_ne_61 (a / 4)))
    rw [hv]
    simp
  | case3 a b =>
    simp only [b64urlEncode, b64Encode, List.filterMap_cons]
    obtain ⟨v, hv⟩ := Option.ne_none_iff_exists'.mp (b64url_filter_ne_none (b64CharOf_ne_61 (a / 4)))
    rw [hv]
    simp
  | case4 a b c rest ih =>
    simp only [b64urlEncode, b64Encode, List.filterMap_cons]
    obtain ⟨v, hv⟩ := Option.ne_none_iff_exists'.mp (b64url_filter_ne_none (b64CharOf_ne_61 (a / 4)))
    rw [hv]
    simp

theorem b64urlEncode_inj {l m : List Nat} (hl : ∀ b ∈ l, b < 256) (hm : ∀ b ∈ m, b < 256)
    (h : b64urlEncode l = b64urlEncode m) : l = m := by
  rw [← b64urlDecode_b64urlEncode hl, ← b64urlDecode_b64urlEncode hm, h]

theorem split2_of_parts {p s : List Nat} (hp : ∀ x ∈ p, x ≠ 46) (hs : ∀ x ∈ s, x ≠ 46)
    (hnp : p ≠ []) (hns : s ≠ []) : split2 (p ++ 46 :: s) = some (p, s) := by
  unfold split2
  rw [splitOnDot_append hp, splitOnDot_no_dot hs]
  simp [hnp, hns]

theorem split2_no_dot {l : List Nat} (h : ∀ x ∈ l, x ≠ 46) : split2 l = none := by
  unfold split2
  rw [splitOnDot_no_dot h]

theorem split2_trailing {p : List Nat} (hp : ∀ x ∈ p, x ≠ 46) :
    split2 (p ++ 46 :: []) = none := by
  unfold split2
  rw [splitOnDot_append hp]
  simp [splitOnDot]

theorem split2_mid_parts {a b' r : List Nat} (ha : ∀ x ∈ a, x ≠ 46)
    (hb : ∀ x ∈ b', x ≠ 46) :
    split2 (a ++ 46 :: (b' ++ 46 :: r)) =
      if a = [] ∨ b' = [] then none else some (a, b') := by
  unfold split2
  rw [splitOnDot_append ha, splitOnDot_append hb]

/-! ## Lemmas: single-position list updates -/

theorem mem_of_mem_set {l : List Nat} {i b x : Nat} (h : x ∈ l.set i b) : x ∈ l ∨ x = b := by
  induction l generalizing i with
  | nil => simp at h
  | cons a t ih =>
    cases i with
    | zero =>
      simp only [List.set] at h
      rcases List.mem_cons.mp h with rfl | h'
      · exact Or.inr rfl
      · exact Or.inl (List.mem_cons_of_mem _ h')
    | succ j =>
      simp only [List.set] at h
      rcases List.mem_cons.mp h with rfl | h'
      · exact Or.inl (List.mem_cons_self _ _)
      · rcases ih h' with h2 | h2
        · exact Or.inl (List.mem_cons_of_mem _ h2)
        · exact Or.inr h2

theorem set_ne_self {l : List Nat} {i b : Nat} (hi : i < l.length)
    (hb : b ≠ l.get ⟨i, hi⟩) : l.set i b ≠ l := by
  intro heq
  apply hb
  have h1 : (l.set i b)[i]? = some b := List.getElem?_set_self hi
  rw [heq, List.getElem?_eq_getElem hi] at h1
  have := Option.some.inj h1
  rw [List.get_eq_getElem]
  exact this.symm

theorem take_ne_self {s : List Nat} {j : Nat} (hj : j < s.length) : s.take j ≠ s := by
  intro heq
  have hlen := congrArg List.length heq
  rw [List.length_take] at hlen
  omega

theorem set_ne_nil {l : List Nat} {i b : Nat} (h : l ≠ []) : l.set i b ≠ [] := by
  intro heq
  apply h
  have := congrArg List.length heq
  rw [List.length_set] at this
  exact List.eq_nil_of_length_eq_zero this

/-! ## Lemmas: token parsing by token shape -/

theorem parseStatelessToken_no_dot (mac : List Nat → List Nat) {l : List Nat}
    (h : ∀ x ∈ l, x ≠ 46) (now : Nat) : parseStatelessToken mac l now = none := by
  unfold parseStatelessToken
  rw [split2_no_dot h]

theorem parseStatelessToken_trailing (mac : List Nat → List Nat) {q : List Nat}
    (hq : ∀ x ∈ q, x ≠ 46) (now : Nat) :
    parseStatelessToken mac (q ++ 46 :: []) now = none := by
  unfold parseStatelessToken
  rw [split2_trailing hq]

theorem parseStatelessToken_parts (mac : List Nat → List Nat) (now : Nat) {q w : List Nat}
    (hq : ∀ x ∈ q, x ≠ 46) (hw : ∀ x ∈ w, x ≠ 46) (hnq : q ≠ []) (hnw : w ≠ []) :
    parseStatelessToken mac (q ++ 46 :: w) now =
      if b64urlEncode (mac q) = w then
        match parseSessionPayload (b64urlDecode q) with
        | none => none
        | some (u', k', e') => if e' ≤ now then none else some (u', k')
      else none := by
  unfold parseStatelessToken
  rw [split2_of_parts hq hw hnq hnw]

theorem parseStatelessToken_sig_mismatch (mac : List Nat → List Nat) (now : Nat)
    {q w : List Nat} (hq : ∀ x ∈ q, x ≠ 46) (hw : ∀ x ∈ w, x ≠ 46)
    (hnq : q ≠ []) (hnw : w ≠ []) (hsig : b64urlEncode (mac q) ≠ w) :
    parseStatelessToken mac (q ++ 46 :: w) now = none := by
  rw [parseStatelessToken_parts mac now hq hw hnq hnw, if_neg hsig]

theorem parseStatelessToken_mid_empty (mac : List Nat → List Nat) (now : Nat)
    {a b' r : List Nat} (ha : ∀ x ∈ a, x ≠ 46) (hb : ∀ x ∈ b', x ≠ 46)
    (hg : a = [] ∨ b' = []) :
    parseStatelessToken mac (a ++ 46 :: (b' ++ 46 :: r)) now = none := by
  unfold parseStatelessToken
  rw [split2_mid_parts ha hb, if_pos hg]

theorem parseStatelessToken_mid_mismatch (mac : List Nat → List Nat) (now : Nat)
    {a b' r : List Nat} (ha : ∀ x ∈ a, x ≠ 46) (hb : ∀ x ∈ b', x ≠ 46)
    (hg : ¬(a = [] ∨ b' = [])) (hsig : b64urlEncode (mac a) ≠ b') :
    parseStatelessToken mac (a ++ 46 :: (b' ++ 46 :: r)) now = none := by
  unfold parseStatelessToken
  rw [split2_mid_parts ha hb, if_neg hg]
  exact if_neg hsig

/-- **C4.** Any single-byte change to a validly created stateless
token — in the payload part, the separator, or the signature part —
makes `parseStatelessToken` reject it, whichever byte changed; a
validly created token whose encoded expiry is not in the future is
also rejected. The parser is a pure function of the token and the
clock by construction (the embedding threads no other state), matching
"never consults external state". The HMAC digest enters as the
parameter `mac`; `hsecond` (no second preimage of the payload) and
`hfrag` (no payload fragment signs a shorter prefix) are the standard
idealisations of HMAC-SHA256, and the byte-range hypotheses state that
digests and credential fields are byte sequences. -/
theorem c4_stateless_token_tamper_and_expiry (mac : List Nat → List Nat) (u k : List Nat)
    (exp now i b : Nat)
    (huB : ∀ c ∈ u, c < 256) (hkB : ∀ c ∈ k, c < 256)
    (h34u : 34 ∉ u) (h34k : 34 ∉ k)
    (hmacB : ∀ q, ∀ c ∈ mac q, c < 256)
    (hsecond : ∀ q, q ≠ b64urlEncode (encodeSessionPayload u k exp) →
      mac q ≠ mac (b64urlEncode (encodeSessionPayload u k exp)))
    (hfrag : ∀ j, j < (b64urlEncode (encodeSessionPayload u k exp)).length →
      b64urlEncode (mac ((b64urlEncode (encodeSessionPayload u k exp)).take j)) ≠
        (b64urlEncode (encodeSessionPayload u k exp)).drop (j + 1))
    (hi : i < (createStatelessToken mac u k exp).length)
    (hb : (createStatelessToken mac u k exp)[i]? ≠ some b) :
    parseStatelessToken mac ((createStatelessToken mac u k exp).set i b) now = none ∧
    (exp ≤ now → parseStatelessToken mac (createStatelessToken mac u k exp) now = none) := by
  have hPB := payload_bounds huB hkB exp
  have hpdot : ∀ y ∈ b64urlEncode (encodeSessionPayload u k exp), y ≠ 46 :=
    fun y hy => b64urlEncode_ne_46 hPB hy
  have hsdot : ∀ y ∈ b64urlEncode (mac (b64urlEncode (encodeSessionPayload u k exp))),
      y ≠ 46 := fun y hy => b64urlEncode_ne_46 (hmacB _) hy
  have hpne := b64urlEncode_ne_nil (payload_ne_nil u k exp)
  set p := b64urlEncode (encodeSessionPayload u k exp) with hpdef
  set s := b64urlEncode (mac p) with hsdef
  have ht : createStatelessToken mac u k exp = p ++ 46 :: s := rfl
  rw [ht] at hi hb
  rw [ht]
  have hlen : (p ++ 46 :: s).length = p.length + 1 + s.length := by
    simp only [List.length_append, List.length_cons]
    omega
  have hi' : i < p.length + 1 + s.length := by
    rw [← hlen]
    exact hi
  constructor
  · rcases Nat.lt_trichotomy i p.length with hi1 | hi2 | hi3
    · -- mutated byte inside the payload part
      have hset : (p ++ 46 :: s).set i b = p.set i b ++ 46 :: s := by
        rw [List.set_append, if_pos hi1]
      have hip : (p ++ 46 :: s)[i]? = some (p.get ⟨i, hi1⟩) := by
        rw [List.getElem?_append_left hi1, List.getElem?_eq_getElem hi1,
          List.get_eq_getElem]
      have hbp : b ≠ p.get ⟨i, hi1⟩ := by
        intro hbe
        exact hb (by rw [hip, hbe])
      by_cases hb46 : b = 46
      · subst hb46
        have hsplitp : p.set i 46 = p.take i ++ 46 :: p.drop (i + 1) := by
          rw [List.set_eq_take_append_cons_drop, if_pos hi1]
        have hform : (p ++ 46 :: s).set i 46 =
            p.take i ++ 46 :: (p.drop (i + 1) ++ 46 :: s) := by
          rw [hset, hsplitp]
          simp only [List.append_assoc, List.cons_append]
        rw [hform]
        have htake : ∀ x ∈ p.take i, x ≠ 46 := fun x hx => hpdot x (List.mem_of_mem_take hx)
        have hdrop : ∀ x ∈ p.drop (i + 1), x ≠ 46 :=
          fun x hx => hpdot x (List.mem_of_mem_drop hx)
        by_cases hg : p.take i = [] ∨ p.drop (i + 1) = []
        · exact parseStatelessToken_mid_empty mac now htake hdrop hg
        · exact parseStatelessToken_mid_mismatch mac now htake hdrop hg (hfrag i hi1)
      · have hsetdot : ∀ y ∈ p.set i b, y ≠ 46 := by
          intro y hy
          rcases mem_of_mem_set hy with hy' | rfl
          · exact hpdot y hy'
          · exact hb46
        have hsetne : p.set i b ≠ p := set_ne_self hi1 hbp
        have hsetnn : p.set i b ≠ [] := set_ne_nil hpne
        rw [hset]
        by_cases hs0 : s = []
        · rw [hs0]
          exact parseStatelessToken_trailing mac hsetdot now
        · apply parseStatelessToken_sig_mismatch mac now hsetdot hsdot hsetnn hs0
          intro heq
          apply hsecond (p.set i b) hsetne
          apply b64urlEncode_inj (hmacB _) (hmacB _)
          rw [heq, hsdef]
    · -- mutated separator byte
      have h46 : (p ++ 46 :: s)[i]? = some 46 := by
        rw [List.getElem?_append_right (by omega), show i - p.length = 0 from by omega,
          List.getElem?_cons_zero]
      have hb46 : b ≠ 46 := by
        intro hbe
        exact hb (by rw [h46, hbe])
      have hset : (p ++ 46 :: s).set i b = p ++ b :: s := by
        rw [List.set_append, if_neg (by omega), show i - p.length = 0 from by omega,
          List.set_cons_zero]
      rw [hset]
      apply parseStatelessToken_no_dot
      intro x hx
      rcases List.mem_append.mp hx with hx' | hx'
      · exact hpdot x hx'
      · rcases List.mem_cons.mp hx' with rfl | hx2
        · exact hb46
        · exact hsdot x hx2
    · -- mutated byte inside the signature part
      obtain ⟨m, hm⟩ : ∃ m, i - p.length = m + 1 := ⟨i - p.length - 1, by omega⟩
      have hj : m < s.length := by omega
      have hsne : s ≠ [] := by
        intro h0
        rw [h0] at hj
        simp at hj
      have his : (p ++ 46 :: s)[i]? = some (s.get ⟨m, hj⟩) := by
        rw [List.getElem?_append_right (by omega), hm, List.getElem?_cons_succ,
          List.getElem?_eq_getElem hj, List.get_eq_getElem]
      have hbs : b ≠ s.get ⟨m, hj⟩ := by
        intro hbe
        exact hb (by rw [his, hbe])
      have hset : (p ++ 46 :: s).set i b = p ++ 46 :: s.set m b := by
        rw [List.set_append, if_neg (by omega), hm, List.set_cons_succ]
      rw [hset]
      by_cases hb46 : b = 46
      · subst hb46
        have hsplits : s.set m 46 = s.take m ++ 46 :: s.drop (m + 1) := by
          rw [List.set_eq_take_append_cons_drop, if_pos hj]
        rw [hsplits]
        have htake : ∀ x ∈ s.take m, x ≠ 46 :=
          fun x hx => hsdot x (List.mem_of_mem_take hx)
        by_cases hg : p = [] ∨ s.take m = []
        · exact parseStatelessToken_mid_empty mac now hpdot htake hg
        · apply parseStatelessToken_mid_mismatch mac now hpdot htake hg
          intro heq
          exact take_ne_self hj (hsdef.trans heq).symm
      · have hsetdot : ∀ y ∈ s.set m b, y ≠ 46 := by
          intro y hy
          rcases mem_of_mem_set hy with hy' | rfl
          · exact hsdot y hy'
          · exact hb46
        have hsetnn : s.set m b ≠ [] := set_ne_nil hsne
        apply parseStatelessToken_sig_mismatch mac now hpdot hsetdot hpne hsetnn
        intro heq
        exact set_ne_self hj hbs (hsdef.trans heq).symm
  · -- expired token
    intro hexp
    by_cases hs0 : s = []
    · rw [hs0]
      exact parseStatelessToken_trailing mac hpdot now
    · rw [parseStatelessToken_parts mac now hpdot hsdot hpne hs0, if_pos hsdef.symm,
        hpdef, b64urlDecode_b64urlEncode hPB, parse_encode_payload u k exp h34u h34k]
      simp [hexp]

/-- Witness for C4 at the concrete toy MAC and a small session: a
payload-byte mutation (position 3), a signature-byte mutation
(position 40), and the expired untampered token are all rejected. -/
theorem c4_stateless_token_tamper_and_expiry_witness :
    parseStatelessToken toyMac ((createStatelessToken toyMac uConc kConc 9).set 3 65) 9 =
      none ∧
    parseStatelessToken toyMac ((createStatelessToken toyMac uConc kConc 9).set 40 65) 9 =
      none ∧
    parseStatelessToken toyMac (createStatelessToken toyMac uConc kConc 9) 9 = none := by
  have hmacB : ∀ q, ∀ c ∈ toyMac q, c < 256 := by
    intro q c hc
    unfold toyMac at hc
    split at hc <;> (rw [List.eq_of_mem_replicate hc]; omega)
  have hsecond : ∀ q, q ≠ b64urlEncode (encodeSessionPayload uConc kConc 9) →
      toyMac q ≠ toyMac (b64urlEncode (encodeSessionPayload uConc kConc 9)) := by
    intro q hq
    have hq' : q ≠ payloadConc := hq
    unfold toyMac
    rw [if_neg hq',
      if_pos (show b64urlEncode (encodeSessionPayload uConc kConc 9) = payloadConc from rfl)]
    decide
  have h1 := c4_stateless_token_tamper_and_expiry toyMac uConc kConc 9 9 3 65
    (by decide) (by decide) (by decide) (by decide) hmacB hsecond (by decide)
    (by decide) (by decide)
  have h2 := c4_stateless_token_tamper_and_expiry toyMac uConc kConc 9 9 40 65
    (by decide) (by decide) (by decide) (by decide) hmacB hsecond (by decide)
    (by decide) (by decide)
  exact ⟨h1.1, h2.1, h1.2 (by decide)⟩

end PdfTranslator
